import Mathlib

/-!
Verification of the pulpo operation dependency-graph and orchestration-compiler
subsystem: a shallow embedding of `core/analysis/dataflow/dataflow.py`,
`core/hierarchy.py` and `core/orchestration/compiler.py`, followed by proofs of
the specified properties.

Python dicts are modelled as insertion-ordered association lists; Python sets
used only for membership are modelled as lists with membership tests; the
recursive DFS routines are modelled with an explicit fuel argument large enough
for all graphs the code ever builds.
-/

namespace Pulpo

/-- Python `d.get(k)` on an insertion-ordered dict modelled as an association list. -/
def dget? {κ α : Type} [DecidableEq κ] : List (κ × α) → κ → Option α
  | [], _ => none
  | (k', v) :: rest, k => if k' = k then some v else dget? rest k

/-- Python `d[k] = v`: overwrite in place, or append a new key at the end. -/
def dinsert {κ α : Type} [DecidableEq κ] (k : κ) (v : α) : List (κ × α) → List (κ × α)
  | [] => [(k, v)]
  | (k', v') :: rest => if k' = k then (k, v) :: rest else (k', v') :: dinsert k v rest

/-- Python `d.setdefault(k, []).append(v)` pattern used throughout the source. -/
def dappend {κ α : Type} [DecidableEq κ] (k : κ) (v : α) : List (κ × List α) → List (κ × List α)
  | [] => [(k, [v])]
  | (k', vs) :: rest => if k' = k then (k', vs ++ [v]) :: rest else (k', vs) :: dappend k v rest

/-- Python `if k not in d: d[k] = []`. -/
def densure {κ α : Type} [DecidableEq κ] (k : κ) : List (κ × List α) → List (κ × List α)
  | [] => [(k, [])]
  | (k', vs) :: rest => if k' = k then (k', vs) :: rest else (k', vs) :: densure k rest

/-- `OperationMetadata` from `dataflow.py`: name plus input/output data models. -/
structure OperationMetadata where
  name : String
  inputs : List String
  outputs : List String
deriving DecidableEq

/-- Python `set(a) == set(b)`. -/
def setEq (a b : List String) : Bool :=
  a.all (fun x => b.contains x) && b.all (fun x => a.contains x)

/-- `OperationMetadata.can_run_parallel_with`: same inputs and same outputs as sets. -/
def canRunParallelWith (a b : OperationMetadata) : Bool :=
  setEq a.inputs b.inputs && setEq a.outputs b.outputs

/-- `DependencyEdge` from `dataflow.py`. -/
structure DependencyEdge where
  source : String
  target : String
  data_models : List String
deriving DecidableEq

/-- `DataFlowGraph` from `dataflow.py`: operations dict, edge list, and the two
adjacency dicts (`_adjacency` maps an operation to the list it depends on). -/
structure DataFlowGraph where
  operations : List (String × OperationMetadata)
  edges : List DependencyEdge
  adjacency : List (String × List String)
  reverse_adjacency : List (String × List String)
deriving DecidableEq

/-- The empty graph (`DataFlowGraph.__init__`). -/
def emptyGraph : DataFlowGraph := ⟨[], [], [], []⟩

/-- `DataFlowGraph.add_operation`. -/
def addOperation (g : DataFlowGraph) (m : OperationMetadata) : DataFlowGraph :=
  ⟨dinsert m.name m g.operations, g.edges,
    densure m.name g.adjacency, densure m.name g.reverse_adjacency⟩

/-- `DataFlowGraph.add_dependency`: record the edge, ensure both endpoints have
adjacency entries, then `adjacency[target].append(source)` and
`reverse_adjacency[source].append(target)`. -/
def addDependency (g : DataFlowGraph) (src tgt : String) (ms : List String) : DataFlowGraph :=
  ⟨g.operations, g.edges ++ [⟨src, tgt, ms⟩],
    dappend tgt src (densure tgt (densure src g.adjacency)),
    dappend src tgt (densure tgt (densure src g.reverse_adjacency))⟩

/-- `DataFlowGraph.get_dependencies` (`self._adjacency.get(op_name, [])`). -/
def depsOf (g : DataFlowGraph) (n : String) : List String :=
  (dget? g.adjacency n).getD []

/-- The keys of the `operations` dict, in insertion order. -/
def opKeys (g : DataFlowGraph) : List String := g.operations.map (·.1)

/-- The recursive body of `DataFlowGraph.has_cycle` (`has_cycle_util`), with the
recursion stack passed functionally and a fuel bound on the recursion depth.
Returns the flag together with the updated visited set. -/
def cycleVisit (adj : String → List String) : Nat → String → List String → List String →
    Bool × List String
  | 0, _, _, visited => (false, visited)
  | fuel+1, node, stack, visited =>
    (adj node).foldl
      (fun r nb =>
        if r.1 then r
        else if nb ∈ r.2 then
          if nb ∈ node :: stack then (true, r.2) else r
        else cycleVisit adj fuel nb (node :: stack) r.2)
      (false, node :: visited)

/-- The loop body of `cycleVisit`, named for the proofs below. -/
def cycleStep (adj : String → List String) (f : Nat) (node : String) (stack : List String) :
    Bool × List String → String → Bool × List String :=
  fun r nb =>
    if r.1 then r
    else if nb ∈ r.2 then
      if nb ∈ node :: stack then (true, r.2) else r
    else cycleVisit adj f nb (node :: stack) r.2

/-- The driver loop of `has_cycle`: try every root not yet visited. -/
def cycleFrom (adj : String → List String) (fuel : Nat) (roots : List String) :
    Bool × List String :=
  roots.foldl
    (fun r n => if r.1 then r else if n ∈ r.2 then r else cycleVisit adj fuel n [] r.2)
    (false, [])

/-- Fuel sufficient for every DFS over this graph. -/
def graphFuel (g : DataFlowGraph) : Nat :=
  g.operations.length + g.adjacency.length + 1

/-- `DataFlowGraph.has_cycle`. -/
def hasCycle (g : DataFlowGraph) : Bool :=
  (cycleFrom (depsOf g) (graphFuel g) (opKeys g)).1

/-- The recursive `visit` of `DataFlowGraph.topological_sort`: state is the pair
(visited, result); a node is appended to the result after all its dependencies. -/
def topoVisit (adj : String → List String) : Nat → String → List String × List String →
    List String × List String
  | 0, _, st => st
  | fuel+1, node, st =>
    if node ∈ st.1 then st
    else
      let st2 := (adj node).foldl (fun s d => topoVisit adj fuel d s) (node :: st.1, st.2)
      (st2.1, st2.2 ++ [node])

/-- The driver loop of `topological_sort`. -/
def topoRun (adj : String → List String) (fuel : Nat) (roots : List String) :
    List String × List String :=
  roots.foldl (fun st n => topoVisit adj fuel n st) ([], [])

/-- `DataFlowGraph.topological_sort`: raises on a cycle, otherwise the DFS postorder. -/
def topologicalSort (g : DataFlowGraph) : Except String (List String) :=
  if hasCycle g then .error "Circular dependency detected in operation graph"
  else .ok (topoRun (depsOf g) (graphFuel g) (opKeys g)).2

/-- The memoized `get_level` of `DataFlowGraph.find_parallel_groups`: level 0 for
nodes with no dependencies, otherwise one plus the maximum level of the
dependencies; results are recorded in the `levels` dict in completion order. -/
def getLevel (deps : String → List String) : Nat → String → List (String × Nat) →
    List (String × Nat) × Nat
  | 0, _, lv => (lv, 0)
  | fuel+1, node, lv =>
    match dget? lv node with
    | some v => (lv, v)
    | none =>
      if (deps node).isEmpty then (dinsert node 0 lv, 0)
      else
        let r := (deps node).foldl
          (fun (acc : List (String × Nat) × Nat) d =>
            let q := getLevel deps fuel d acc.1
            (q.1, max acc.2 q.2)) (lv, 0)
        (dinsert node (r.2 + 1) r.1, r.2 + 1)

/-- The `levels` dict after running `get_level` on every operation. -/
def computeLevels (adj : String → List String) (fuel : Nat) (roots : List String) :
    List (String × Nat) :=
  roots.foldl (fun lv n => (getLevel adj fuel n lv).1) []

/-- Grouping of `levels.items()` by level value, in insertion order of levels. -/
def levelGroups (lv : List (String × Nat)) : List (Nat × List String) :=
  lv.foldl (fun d p => dappend p.2 p.1 d) []

/-- The finished `levels` dict of `find_parallel_groups`. -/
def graphLevels (g : DataFlowGraph) : List (String × Nat) :=
  computeLevels (depsOf g) (graphFuel g) (opKeys g)

/-- `DataFlowGraph.find_parallel_groups`: group the operations by level and
return the groups sorted by increasing level. -/
def findParallelGroups (g : DataFlowGraph) : List (List String) :=
  (((levelGroups (graphLevels g)).map (·.1)).insertionSort (· ≤ ·)).map
    (fun l => (dget? (levelGroups (graphLevels g)) l).getD [])

/-- `DataFlowAnalyzer.build_dependency_graph`: register the operations, index the
producers of every output model, then add one edge per producer/input-model/
consumer triple, skipping self-loops. -/
def buildGraph (ops : List OperationMetadata) : DataFlowGraph :=
  let g0 := ops.foldl addOperation emptyGraph
  let producers := ops.foldl
    (fun d op => op.outputs.foldl (fun d out => dappend out op.name d) d) []
  ops.foldl
    (fun g op => op.inputs.foldl
      (fun g inp => ((dget? producers inp).getD []).foldl
        (fun g p => if p = op.name then g else addDependency g p op.name [inp]) g) g) g0

/-- `ParsedName` from `hierarchy.py`. -/
structure ParsedName where
  full_name : String
  hierarchy : List String
  level : Nat
  step : String
  parent : Option String
  is_standalone : Bool
deriving DecidableEq

/-- Python `name.split(".")`: split on every dot, keeping empty fragments. -/
def splitDot : List Char → List (List Char)
  | [] => [[]]
  | c :: cs =>
    match splitDot cs with
    | [] => []
    | s :: rest => if c = '.' then [] :: s :: rest else (c :: s) :: rest

/-- Python `s.isalnum()` restricted to the ASCII range: non-empty and all
characters ASCII alphanumeric. Python's `isalnum` is Unicode-aware (it also
accepts letters such as 'é'), so this models `parse` faithfully only on
all-ASCII names; statements about non-trivial acceptance therefore carry an
explicit all-ASCII hypothesis. -/
def pyIsAlnum (l : List Char) : Bool :=
  !l.isEmpty && l.all Char.isAlphanum

/-- The non-empty dot-separated segments of a name (`parts` in
`HierarchyParser.parse`). -/
def nameParts (name : String) : List String :=
  ((splitDot name.toList).map (fun l => String.mk l)).filter (fun s => !(s == ""))

/-- `HierarchyParser.parse`: reject empty names, names whose residue after
removing dots and underscores fails `isalnum`, names with no non-empty segment,
and names deeper than `MAX_LEVEL = 10`. -/
def parseName (name : String) : Except String ParsedName :=
  if name = "" then .error "Operation name must be non-empty string"
  else if !pyIsAlnum (name.toList.filter (fun c => !(c == '.') && !(c == '_'))) then
    .error ("Operation name must contain only alphanumeric, dots, and underscores: " ++ name)
  else if (nameParts name).isEmpty then
    .error ("Operation name cannot be empty or only dots: " ++ name)
  else if (nameParts name).length > 10 then
    .error ("Operation hierarchy too deep (max 10 levels): " ++ name)
  else
    .ok ⟨name, nameParts name, (nameParts name).length, (nameParts name).getLastD "",
      if (nameParts name).length = 1 then none
      else some (String.intercalate "." (nameParts name).dropLast),
      (nameParts name).length = 1⟩

/-- The accumulating loop of `HierarchyParser.group_by_parent`, keyed by the
parsed parent (`none` for standalone operations). -/
def groupByParentGo (acc : List (Option String × List String)) :
    List String → Except String (List (Option String × List String))
  | [] => .ok acc
  | n :: rest =>
    match parseName n with
    | .error e => .error e
    | .ok p => groupByParentGo (dappend p.parent n acc) rest

/-- `HierarchyParser.group_by_parent`. -/
def groupByParent (names : List String) : Except String (List (Option String × List String)) :=
  groupByParentGo [] names

/-- `FlowDefinition` from `compiler.py`. -/
structure FlowDefinition where
  name : String
  operations : List String
  hierarchy_path : String
  hierarchy_level : Nat
  is_standalone : Bool
  parallel_groups : List (List String)
  dependencies : List (String × List String)
deriving DecidableEq

/-- The flow-local adjacency built by `FlowDefinition._has_circular_dependencies`:
start from `{op: [] for op in operations}` and overwrite each key present in the
`dependencies` dict with its deps filtered to flow members. -/
def localAdj (f : FlowDefinition) : List (String × List String) :=
  f.dependencies.foldl
    (fun d pr =>
      if (dget? d pr.1).isSome then
        dinsert pr.1 (pr.2.filter (fun x => decide (x ∈ f.operations))) d
      else d)
    (f.operations.foldl (fun d op => dinsert op [] d) [])

/-- `FlowDefinition._has_circular_dependencies`: the same DFS cycle check run on
the flow-local adjacency. -/
def hasCircularDependencies (f : FlowDefinition) : Bool :=
  let adj := localAdj f
  (cycleFrom (fun n => (dget? adj n).getD []) (adj.length + 1) (adj.map (·.1))).1

/-- `FlowDefinition.can_execute`: has operations and no local circular dependencies. -/
def canExecute (f : FlowDefinition) : Bool :=
  !f.operations.isEmpty && !hasCircularDependencies f

/-- `Orchestration` from `compiler.py`. -/
structure Orchestration where
  flows : List FlowDefinition
  graph : DataFlowGraph
  operation_metadata : List (String × OperationMetadata)
deriving DecidableEq

/-- Python `{op.name: op for op in operations}` (`self.operations` of the compiler). -/
def dictOfOps (ops : List OperationMetadata) : List (String × OperationMetadata) :=
  ops.foldl (fun d op => dinsert op.name op d) []

/-- Python `self.operations[op]`; total since the compiler only looks up names of
registered operations. -/
def opLookup (d : List (String × OperationMetadata)) (k : String) : OperationMetadata :=
  (dget? d k).getD ⟨k, [], []⟩

/-- The absorbing inner loop of `_find_parallel_groups_in_flow`: collect every
later unclaimed operation that can run in parallel with the group's first member. -/
def absorbGroup (op1 : OperationMetadata) :
    List OperationMetadata → List String → List String × List String
  | [], used => ([], used)
  | op2 :: rest, used =>
    if op2.name ∈ used then absorbGroup op1 rest used
    else if canRunParallelWith op1 op2 then
      let r := absorbGroup op1 rest (op2.name :: used)
      (op2.name :: r.1, r.2)
    else absorbGroup op1 rest used

/-- The outer loop of `_find_parallel_groups_in_flow`. -/
def groupsGo : List OperationMetadata → List String → List (List String)
  | [], _ => []
  | op1 :: rest, used =>
    if op1.name ∈ used then groupsGo rest used
    else
      let r := absorbGroup op1 rest (op1.name :: used)
      (op1.name :: r.1) :: groupsGo rest r.2

/-- `OrchestrationCompiler._find_parallel_groups_in_flow`. -/
def findParallelGroupsInFlow (opMeta : List OperationMetadata) : List (List String) :=
  if opMeta.length ≤ 1 then opMeta.map (fun op => [op.name])
  else groupsGo opMeta []

/-- The flow-local dependency dict of `_create_parent_flow`/`_create_standalone_flow`:
global dependencies restricted to members of the flow. -/
def flowDeps (g : DataFlowGraph) (names : List String) : List (String × List String) :=
  names.foldl (fun d op => dinsert op ((depsOf g op).filter (fun x => decide (x ∈ names))) d) []

/-- `OrchestrationCompiler._create_standalone_flow`. -/
def standaloneFlow (opsDict : List (String × OperationMetadata)) (g : DataFlowGraph)
    (names : List String) : FlowDefinition :=
  ⟨"standalones_flow", names, "", 0, true,
    findParallelGroupsInFlow (names.map (opLookup opsDict)), flowDeps g names⟩

/-- Python `parent.replace(".", "_")`: the pattern is a single character, so the
replacement is a character map. -/
def replaceDotUnderscore (s : String) : String :=
  String.mk (s.toList.map (fun c => if c = '.' then '_' else c))

/-- `OrchestrationCompiler._create_parent_flow`. -/
def parentFlow (opsDict : List (String × OperationMetadata)) (g : DataFlowGraph)
    (parent : String) (names : List String) : Except String FlowDefinition :=
  match parseName parent with
  | .error e => .error e
  | .ok p =>
    .ok ⟨replaceDotUnderscore parent ++ "_flow", names, parent, p.level, false,
      findParallelGroupsInFlow (names.map (opLookup opsDict)), flowDeps g names⟩

/-- The per-group loop of `OrchestrationCompiler._create_flows`. -/
def createFlowsGo (opsDict : List (String × OperationMetadata)) (g : DataFlowGraph) :
    List (Option String × List String) → Except String (List FlowDefinition)
  | [] => .ok []
  | (none, names) :: rest =>
    match createFlowsGo opsDict g rest with
    | .error e => .error e
    | .ok fs => .ok (standaloneFlow opsDict g names :: fs)
  | (some p, names) :: rest =>
    match parentFlow opsDict g p names with
    | .error e => .error e
    | .ok f =>
      match createFlowsGo opsDict g rest with
      | .error e => .error e
      | .ok fs => .ok (f :: fs)

/-- `OrchestrationCompiler.compile`, with the compiler's `self.operations` dict
passed explicitly (it is rebuilt from the argument list at the start of every call). -/
def compileCore (ops : List OperationMetadata) (opsDict : List (String × OperationMetadata)) :
    Except String Orchestration :=
  if hasCycle (buildGraph ops) then
    .error "Invalid data flow: Circular dependency detected in operation graph"
  else
    match groupByParent (ops.map (·.name)) with
    | .error e => .error e
    | .ok grouped =>
      match createFlowsGo opsDict (buildGraph ops) grouped with
      | .error e => .error e
      | .ok flows => .ok ⟨flows, buildGraph ops, opsDict⟩

/-- `compile` as the caller sees it: a fresh operations dict per call. -/
def compile (ops : List OperationMetadata) : Except String Orchestration :=
  compileCore ops (dictOfOps ops)

/-- `compile` with the compiler object's state made explicit: the incoming
`self.operations` dict is overwritten before any other work. -/
def compileWithState (ops : List OperationMetadata)
    (st : List (String × OperationMetadata)) :
    Except String Orchestration × List (String × OperationMetadata) :=
  let newSt := dictOfOps ops
  (compileCore ops newSt, newSt)

/-! ### Concrete operation sets from the specification scenarios -/

/-- `fetchStepstone` of the end-to-end scenario. -/
def opFetchStepstone : OperationMetadata := ⟨"scraping.stepstone.fetch", [], ["RawJobs"]⟩

/-- `fetchLinkedin` of the end-to-end scenario. -/
def opFetchLinkedin : OperationMetadata := ⟨"scraping.linkedin.fetch", [], ["RawJobs"]⟩

/-- `merge` of the end-to-end scenario. -/
def opMerge : OperationMetadata := ⟨"scraping.merge", ["RawJobs"], ["RawJobs"]⟩

/-- `clean` of the end-to-end scenario. -/
def opClean : OperationMetadata := ⟨"parsing.clean", ["RawJobs"], ["CleanedJobs"]⟩

/-- The four operations of the end-to-end scenario, in declaration order. -/
def scenarioOps : List OperationMetadata :=
  [opFetchStepstone, opFetchLinkedin, opMerge, opClean]

/-- Operation `A(outputs=[X], inputs=[Y])` of the cycle scenario. -/
def opCycleA : OperationMetadata := ⟨"A", ["Y"], ["X"]⟩

/-- Operation `B(outputs=[Y], inputs=[X])` of the cycle scenario. -/
def opCycleB : OperationMetadata := ⟨"B", ["X"], ["Y"]⟩

/-- An operation that reads and writes the same model. -/
def opSelf : OperationMetadata := ⟨"S", ["M"], ["M"]⟩

/-! ### Semantic notions used by the specification proofs -/

/-- `Dep adj t s`: operation `t` directly depends on operation `s`. -/
def Dep (adj : String → List String) (t s : String) : Prop := s ∈ adj t

/-- The adjacency function only relates nodes of `N`. -/
def AdjClosed (adj : String → List String) (N : List String) : Prop :=
  ∀ x y, y ∈ adj x → x ∈ N ∧ y ∈ N

/-- No dependency cycle through any node of `N`. -/
def Acyc (adj : String → List String) (N : List String) : Prop :=
  ∀ x ∈ N, ¬ Relation.TransGen (Dep adj) x x

/-- Every element of `res` is preceded in `res` by all of its dependencies. -/
def OrdClosed (adj : String → List String) (res : List String) : Prop :=
  ∀ l₁ t l₂, res = l₁ ++ t :: l₂ → ∀ s ∈ adj t, s ∈ l₁

/-- Invariant of the cycle DFS: the settled nodes (visited and off the stack)
are closed under dependencies and lie on no cycle. -/
def SettledOK (adj : String → List String) (visited stack : List String) : Prop :=
  (∀ x ∈ visited, x ∉ stack → ∀ y ∈ adj x, y ∈ visited ∧ y ∉ stack) ∧
  (∀ x ∈ visited, x ∉ stack → ¬ Relation.TransGen (Dep adj) x x)

/-- How one call of the topological-sort DFS may transform its state. -/
def Ext (adj : String → List String) (N : List String) (vis res vis' res' : List String) :
    Prop :=
  vis ⊆ vis' ∧ vis' ⊆ N ∧
  (∃ d, res' = res ++ d ∧ ∀ x ∈ d, x ∉ vis) ∧
  (∀ x, x ∈ res' → x ∈ vis') ∧
  (∀ g ∈ vis', g ∉ res' → g ∈ vis ∧ g ∉ res) ∧
  (∀ x ∈ vis', x ∈ vis ∨ x ∈ res') ∧
  (res.Nodup → res'.Nodup) ∧
  (OrdClosed adj res → OrdClosed adj res')

/-- The loop body of `cycleFrom`, named for the proofs below. -/
def cycleRootStep (adj : String → List String) (fuel : Nat) :
    Bool × List String → String → Bool × List String :=
  fun r n => if r.1 then r else if n ∈ r.2 then r else cycleVisit adj fuel n [] r.2

/-- Specification of one successful (`false`) call of the cycle DFS. -/
def CycleVisitOK (adj : String → List String) (N : List String) (f : Nat) : Prop :=
  ∀ (node : String) (stack visited : List String),
    node ∈ N → node ∉ visited → (∀ x ∈ stack, x ∈ visited) → (∀ x ∈ visited, x ∈ N) →
    SettledOK adj visited stack →
    (N.filter (fun x => decide (x ∉ visited))).length < f →
    (cycleVisit adj f node stack visited).1 = false →
    (∀ x ∈ visited, x ∈ (cycleVisit adj f node stack visited).2) ∧
    node ∈ (cycleVisit adj f node stack visited).2 ∧
    (∀ x ∈ (cycleVisit adj f node stack visited).2, x ∈ N) ∧
    SettledOK adj (cycleVisit adj f node stack visited).2 stack

/-- The loop body of `topoVisit`, named for the proofs below. -/
def topoStep (adj : String → List String) (f : Nat) :
    List String × List String → String → List String × List String :=
  fun s d => topoVisit adj f d s

/-- Preconditions of one call of the topological-sort DFS: the target is a known
node, the state is well-formed, and every grey node (visited but not yet
emitted) reaches the target. -/
def TopoPre (adj : String → List String) (N : List String) (node : String)
    (vis res : List String) : Prop :=
  node ∈ N ∧ (∀ x ∈ vis, x ∈ N) ∧ (∀ x ∈ res, x ∈ vis) ∧
  (∀ g ∈ vis, g ∉ res → Relation.TransGen (Dep adj) g node)

/-- Specification of one call of the topological-sort DFS. -/
def TopoVisitOK (adj : String → List String) (N : List String) (f : Nat) : Prop :=
  ∀ (node : String) (st : List String × List String),
    TopoPre adj N node st.1 st.2 → Acyc adj N →
    (N.filter (fun x => decide (x ∉ st.1))).length < f →
    Ext adj N st.1 st.2 (topoVisit adj f node st).1 (topoVisit adj f node st).2 ∧
    node ∈ (topoVisit adj f node st).1 ∧
    (node ∉ st.1 → node ∈ (topoVisit adj f node st).2) ∧
    (node ∈ st.1 → topoVisit adj f node st = st)

/-- The loop body of the dependency fold in `getLevel`, named for the proofs. -/
def levelStep (adj : String → List String) (f : Nat) :
    List (String × Nat) × Nat → String → List (String × Nat) × Nat :=
  fun acc d =>
    let q := getLevel adj f d acc.1
    (q.1, max acc.2 q.2)

/-- The fixpoint equation `find_parallel_groups` assigns: level 0 for nodes with
no dependencies, else one plus the maximum level of the dependencies. -/
def FixEq (adj : String → List String) (lv : List (String × Nat)) (n : String) (v : Nat) :
    Prop :=
  if adj n = [] then v = 0
  else (∀ d ∈ adj n, ∃ vd, dget? lv d = some vd) ∧
    v = ((adj n).map (fun d => (dget? lv d).getD 0)).foldl max 0 + 1

/-- A well-formed levels table: distinct keys, each satisfying the fixpoint. -/
def TableOK (adj : String → List String) (lv : List (String × Nat)) : Prop :=
  (lv.map (·.1)).Nodup ∧ ∀ p ∈ lv, FixEq adj lv p.1 p.2

/-- Table extension: existing bindings never change. -/
def DExt (lv lv' : List (String × Nat)) : Prop :=
  ∀ k v, dget? lv k = some v → dget? lv' k = some v

/-- Specification of one `getLevel` call, with ghost grey set `G`. -/
def LevelOK (adj : String → List String) (N : List String) (f : Nat) : Prop :=
  ∀ (node : String) (G : List String) (lv : List (String × Nat)),
    node ∈ N → (∀ g ∈ G, Relation.TransGen (Dep adj) g node) →
    Acyc adj N →
    (N.filter (fun x => decide (x ∉ G))).length < f →
    TableOK adj lv →
    DExt lv (getLevel adj f node lv).1 ∧
    (∀ m ∈ G, dget? lv m = none → dget? (getLevel adj f node lv).1 m = none) ∧
    (∀ k v, dget? (getLevel adj f node lv).1 k = some v →
      dget? lv k = some v ∨ k ∈ N) ∧
    TableOK adj (getLevel adj f node lv).1 ∧
    dget? (getLevel adj f node lv).1 node = some (getLevel adj f node lv).2

/-! ### Association-list lemmas -/

theorem dget?_dinsert {κ α : Type} [DecidableEq κ] (k : κ) (v : α) (d : List (κ × α)) (m : κ) :
    dget? (dinsert k v d) m = if k = m then some v else dget? d m := by
  induction d with
  | nil => simp [dinsert, dget?]
  | cons p rest ih =>
    obtain ⟨k', v'⟩ := p
    by_cases hk : k' = k
    · subst hk
      simp only [dinsert, if_pos rfl, dget?]
      by_cases hm : k' = m <;> simp [hm]
    · simp only [dinsert, if_neg hk, dget?]
      by_cases hm : k' = m
      · subst hm
        have : ¬ k = k' := fun h => hk h.symm
        simp [this]
      · simp [hm, ih]

theorem dget?_densure {κ α : Type} [DecidableEq κ] (k : κ) (d : List (κ × List α)) (m : κ) :
    dget? (densure k d) m = if k = m then some ((dget? d k).getD []) else dget? d m := by
  induction d with
  | nil => simp [densure, dget?]
  | cons p rest ih =>
    obtain ⟨k', v'⟩ := p
    by_cases hk : k' = k
    · subst hk
      simp only [densure, if_pos rfl, dget?]
      by_cases hm : k' = m <;> simp [hm]
    · simp only [densure, if_neg hk, dget?]
      by_cases hm : k' = m
      · subst hm
        have hne : ¬ k = k' := fun h => hk h.symm
        simp [hne, hk]
      · simp [hm, ih]

theorem dget?_dappend {κ α : Type} [DecidableEq κ] (k : κ) (v : α) (d : List (κ × List α))
    (m : κ) :
    dget? (dappend k v d) m =
      if k = m then some ((dget? d k).getD [] ++ [v]) else dget? d m := by
  induction d with
  | nil => simp [dappend, dget?]
  | cons p rest ih =>
    obtain ⟨k', v'⟩ := p
    by_cases hk : k' = k
    · subst hk
      simp only [dappend, if_pos rfl, dget?]
      by_cases hm : k' = m <;> simp [hm]
    · simp only [dappend, if_neg hk, dget?]
      by_cases hm : k' = m
      · subst hm
        have hne : ¬ k = k' := fun h => hk h.symm
        simp [hne, hk]
      · simp [hm, ih]

theorem dget?_mem {κ α : Type} [DecidableEq κ] {d : List (κ × α)} {k : κ} {v : α}
    (h : dget? d k = some v) : (k, v) ∈ d := by
  induction d with
  | nil => simp [dget?] at h
  | cons p rest ih =>
    obtain ⟨k', v'⟩ := p
    simp only [dget?] at h
    by_cases hk : k' = k
    · subst hk
      rw [if_pos rfl] at h
      have hv := Option.some.inj h
      subst hv
      exact List.mem_cons_self _ _
    · simp only [if_neg hk] at h
      exact List.mem_cons_of_mem _ (ih h)

theorem mem_dget? {κ α : Type} [DecidableEq κ] {d : List (κ × α)} {k : κ} {v : α}
    (hnd : (d.map (·.1)).Nodup) (h : (k, v) ∈ d) : dget? d k = some v := by
  induction d with
  | nil => simp at h
  | cons p rest ih =>
    obtain ⟨k', v'⟩ := p
    simp only [List.map_cons, List.nodup_cons] at hnd
    rcases List.mem_cons.mp h with h1 | h1
    · cases h1
      simp [dget?]
    · have hk : k' ≠ k := by
        intro he
        subst he
        exact hnd.1 (List.mem_map.mpr ⟨(k', v), h1, rfl⟩)
      simp only [dget?, if_neg hk]
      exact ih hnd.2 h1

/-- A generic fold-invariant principle, remembering membership of each element. -/
theorem foldl_inv {α β : Type} (P : α → Prop) (f : α → β → α) (l : List β) (a : α)
    (h0 : P a) (hstep : ∀ x b, b ∈ l → P x → P (f x b)) : P (l.foldl f a) := by
  induction l generalizing a with
  | nil => exact h0
  | cons b rest ih =>
    exact ih (f a b) (hstep a b (List.mem_cons_self _ _) h0)
      (fun x c hc hx => hstep x c (List.mem_cons_of_mem _ hc) hx)

/-! ### Graph-construction lemmas -/

theorem depsOf_addOperation (g : DataFlowGraph) (m : OperationMetadata) (n : String) :
    depsOf (addOperation g m) n = depsOf g n := by
  simp only [depsOf, addOperation, dget?_densure]
  by_cases h : m.name = n
  · subst h
    simp
  · simp [h]

theorem depsOf_addDependency (g : DataFlowGraph) (src tgt : String) (ms : List String)
    (n : String) :
    depsOf (addDependency g src tgt ms) n =
      if tgt = n then depsOf g n ++ [src] else depsOf g n := by
  simp only [depsOf, addDependency, dget?_dappend, dget?_densure]
  by_cases h : tgt = n
  · subst h
    by_cases h2 : src = tgt <;> simp [h2]
  · simp only [if_neg h]
    by_cases h2 : src = n
    · subst h2
      by_cases h3 : tgt = src <;> simp [h3] at h ⊢
    · simp [h, h2]

theorem edges_addOperation (g : DataFlowGraph) (m : OperationMetadata) :
    (addOperation g m).edges = g.edges := rfl

theorem edges_addDependency (g : DataFlowGraph) (src tgt : String) (ms : List String) :
    (addDependency g src tgt ms).edges = g.edges ++ [⟨src, tgt, ms⟩] := rfl

theorem operations_addDependency (g : DataFlowGraph) (src tgt : String) (ms : List String) :
    (addDependency g src tgt ms).operations = g.operations := rfl

theorem mem_dinsert {κ α : Type} [DecidableEq κ] {k : κ} {v : α} {d : List (κ × α)} {p : κ × α}
    (h : p ∈ dinsert k v d) : p = (k, v) ∨ p ∈ d := by
  induction d with
  | nil =>
    simp only [dinsert, List.mem_singleton] at h
    exact Or.inl h
  | cons q rest ih =>
    obtain ⟨k', v'⟩ := q
    by_cases hk : k' = k
    · subst hk
      rw [dinsert, if_pos rfl, List.mem_cons] at h
      rcases h with h | h
      · exact Or.inl h
      · exact Or.inr (List.mem_cons_of_mem _ h)
    · rw [dinsert, if_neg hk, List.mem_cons] at h
      rcases h with h | h
      · exact Or.inr (List.mem_cons.mpr (Or.inl h))
      · rcases ih h with h1 | h1
        · exact Or.inl h1
        · exact Or.inr (List.mem_cons_of_mem _ h1)

theorem keys_dinsert_mem {κ α : Type} [DecidableEq κ] (k : κ) (v : α) (d : List (κ × α))
    (m : κ) : m ∈ (dinsert k v d).map (·.1) ↔ m = k ∨ m ∈ d.map (·.1) := by
  induction d with
  | nil => simp [dinsert]
  | cons q rest ih =>
    obtain ⟨k', v'⟩ := q
    by_cases hk : k' = k
    · subst hk
      rw [dinsert, if_pos rfl]
      simp
    · rw [dinsert, if_neg hk]
      simp only [List.map_cons, List.mem_cons, ih]
      tauto

theorem keys_dinsert_fresh {κ α : Type} [DecidableEq κ] {k : κ} (v : α) {d : List (κ × α)}
    (h : k ∉ d.map (·.1)) : (dinsert k v d).map (·.1) = d.map (·.1) ++ [k] := by
  induction d with
  | nil => simp [dinsert]
  | cons q rest ih =>
    obtain ⟨k', v'⟩ := q
    simp only [List.map_cons, List.mem_cons] at h
    push_neg at h
    have hk : k' ≠ k := fun he => h.1 he.symm
    simp only [dinsert, if_neg hk, List.map_cons, List.cons_append]
    rw [ih h.2]

theorem dictOfOps_keys_aux (ops : List OperationMetadata) :
    ∀ acc : List (String × OperationMetadata),
      (ops.map (·.name)).Nodup → (∀ n ∈ ops.map (·.name), n ∉ acc.map (·.1)) →
      ((ops.foldl (fun d op => dinsert op.name op d) acc).map (·.1)) =
        acc.map (·.1) ++ ops.map (·.name) := by
  induction ops with
  | nil => intro acc _ _; simp
  | cons op rest ih =>
    intro acc hnd hfresh
    simp only [List.map_cons, List.nodup_cons] at hnd
    simp only [List.foldl_cons]
    rw [ih (dinsert op.name op acc) hnd.2]
    · rw [keys_dinsert_fresh op (hfresh op.name (by simp))]
      simp
    · intro n hn
      rw [keys_dinsert_mem]
      push_neg
      constructor
      · intro he
        exact hnd.1 (he ▸ hn)
      · exact hfresh n (List.mem_cons_of_mem _ hn)

theorem dictOfOps_keys {ops : List OperationMetadata} (hnd : (ops.map (·.name)).Nodup) :
    (dictOfOps ops).map (·.1) = ops.map (·.name) := by
  have := dictOfOps_keys_aux ops [] hnd (by simp)
  simpa [dictOfOps] using this

theorem mem_keys_foldl_dinsert (ops : List OperationMetadata) :
    ∀ (acc : List (String × OperationMetadata)) (m : String),
      m ∈ ((ops.foldl (fun d op => dinsert op.name op d) acc).map (·.1)) ↔
        m ∈ acc.map (·.1) ∨ m ∈ ops.map (·.name) := by
  induction ops with
  | nil => intro acc m; simp
  | cons op rest ih =>
    intro acc m
    simp only [List.foldl_cons, List.map_cons, List.mem_cons]
    rw [ih, keys_dinsert_mem]
    tauto

theorem mem_keys_dictOfOps (ops : List OperationMetadata) (m : String) :
    m ∈ (dictOfOps ops).map (·.1) ↔ m ∈ ops.map (·.name) := by
  have := mem_keys_foldl_dinsert ops [] m
  simpa [dictOfOps] using this

theorem dictOfOps_entry (ops : List OperationMetadata) :
    ∀ p ∈ dictOfOps ops, p.2.name = p.1 := by
  unfold dictOfOps
  have : ∀ (acc : List (String × OperationMetadata)), (∀ p ∈ acc, p.2.name = p.1) →
      ∀ p ∈ ops.foldl (fun d op => dinsert op.name op d) acc, p.2.name = p.1 := by
    intro acc hacc
    refine foldl_inv (fun d => ∀ p ∈ d, p.2.name = p.1) _ ops acc hacc ?_
    intro d op _ hd p hp
    rcases mem_dinsert hp with h | h
    · subst h; rfl
    · exact hd p h
  exact this [] (by simp)

theorem opLookup_name (ops : List OperationMetadata) (k : String) :
    (opLookup (dictOfOps ops) k).name = k := by
  unfold opLookup
  cases h : dget? (dictOfOps ops) k with
  | none => simp
  | some v =>
    simp only [Option.getD_some]
    exact dictOfOps_entry ops (k, v) (dget?_mem h)

theorem depsOf_foldl_addOperation (ops : List OperationMetadata) (g : DataFlowGraph)
    (n : String) : depsOf (ops.foldl addOperation g) n = depsOf g n := by
  induction ops generalizing g with
  | nil => rfl
  | cons op rest ih => rw [List.foldl_cons, ih, depsOf_addOperation]

theorem edges_foldl_addOperation (ops : List OperationMetadata) (g : DataFlowGraph) :
    (ops.foldl addOperation g).edges = g.edges := by
  induction ops generalizing g with
  | nil => rfl
  | cons op rest ih => rw [List.foldl_cons, ih, edges_addOperation]

theorem operations_foldl_addOperation (ops : List OperationMetadata) (g : DataFlowGraph) :
    (ops.foldl addOperation g).operations =
      ops.foldl (fun d op => dinsert op.name op d) g.operations := by
  induction ops generalizing g with
  | nil => rfl
  | cons op rest ih => rw [List.foldl_cons, List.foldl_cons, ih]; rfl

/-- Every producer recorded in the `output_producers` index is the name of one of
the operations. -/
theorem producers_values (ops : List OperationMetadata) :
    ∀ k vs,
      dget? (ops.foldl
        (fun d op => op.outputs.foldl (fun d out => dappend out op.name d) d) []) k = some vs →
      ∀ p ∈ vs, p ∈ ops.map (·.name) := by
  have main : ∀ (acc : List (String × List String)),
      (∀ k vs, dget? acc k = some vs → ∀ p ∈ vs, p ∈ ops.map (·.name)) →
      ∀ k vs, dget? (ops.foldl
        (fun d op => op.outputs.foldl (fun d out => dappend out op.name d) d) acc) k = some vs →
      ∀ p ∈ vs, p ∈ ops.map (·.name) := by
    intro acc hacc
    refine foldl_inv (fun d => ∀ k vs, dget? d k = some vs → ∀ p ∈ vs, p ∈ ops.map (·.name))
      _ ops acc hacc ?_
    intro d op hop hd
    refine foldl_inv (fun d => ∀ k vs, dget? d k = some vs → ∀ p ∈ vs, p ∈ ops.map (·.name))
      _ op.outputs d hd ?_
    intro d2 out _ hd2 k vs hvs p hp
    rw [dget?_dappend] at hvs
    by_cases hko : out = k
    · rw [if_pos hko] at hvs
      have hv := Option.some.inj hvs
      subst hv
      rcases List.mem_append.mp hp with h1 | h1
      · cases ho : dget? d2 out with
        | none => rw [ho] at h1; simp at h1
        | some o =>
          rw [ho] at h1
          exact hd2 out o ho p h1
      · rw [List.mem_singleton] at h1
        subst h1
        exact List.mem_map.mpr ⟨op, hop, rfl⟩
    · rw [if_neg hko] at hvs
      exact hd2 k vs hvs p hp
  exact main [] (by intro k vs h; rw [show dget? ([] : List (String × List String)) k = none from rfl] at h; cases h)

theorem buildInv_addDependency {names : List String} {g : DataFlowGraph} {src tgt : String}
    {ms : List String}
    (hc : ∀ x y, y ∈ depsOf g x → x ∈ names ∧ y ∈ names)
    (he : ∀ e ∈ g.edges, e.source ∈ depsOf g e.target ∧ e.source ≠ e.target)
    (hs : src ∈ names) (ht : tgt ∈ names) (hne : src ≠ tgt) :
    (∀ x y, y ∈ depsOf (addDependency g src tgt ms) x →
      x ∈ names ∧ y ∈ names) ∧
    (∀ e ∈ (addDependency g src tgt ms).edges,
      e.source ∈ depsOf (addDependency g src tgt ms) e.target ∧ e.source ≠ e.target) := by
  constructor
  · intro x y hy
    rw [depsOf_addDependency] at hy
    by_cases hx : tgt = x
    · rw [if_pos hx] at hy
      rcases List.mem_append.mp hy with h1 | h1
      · exact hc x y h1
      · rw [List.mem_singleton] at h1
        subst h1
        exact ⟨hx ▸ ht, hs⟩
    · rw [if_neg hx] at hy
      exact hc x y hy
  · intro e hme
    rw [edges_addDependency] at hme
    rcases List.mem_append.mp hme with h1 | h1
    · obtain ⟨h2, h3⟩ := he e h1
      refine ⟨?_, h3⟩
      rw [depsOf_addDependency]
      by_cases hx : tgt = e.target
      · rw [if_pos hx]
        exact List.mem_append.mpr (Or.inl h2)
      · rw [if_neg hx]
        exact h2
    · rw [List.mem_singleton] at h1
      subst h1
      refine ⟨?_, hne⟩
      rw [depsOf_addDependency, if_pos rfl]
      exact List.mem_append.mpr (Or.inr (List.mem_singleton.mpr rfl))

/-- The two structural invariants of `build_dependency_graph`: dependencies only
relate operation names, and every recorded edge appears in the adjacency with
distinct endpoints. -/
theorem buildGraph_inv (ops : List OperationMetadata) :
    (∀ x y, y ∈ depsOf (buildGraph ops) x →
      x ∈ ops.map (·.name) ∧ y ∈ ops.map (·.name)) ∧
    (∀ e ∈ (buildGraph ops).edges,
      e.source ∈ depsOf (buildGraph ops) e.target ∧ e.source ≠ e.target) := by
  unfold buildGraph
  set names := ops.map (·.name) with hnames
  set producers := ops.foldl
    (fun d op => op.outputs.foldl (fun d out => dappend out op.name d) d) [] with hprod
  set g0 := ops.foldl addOperation emptyGraph with hg0
  have hbase : (∀ x y, y ∈ depsOf g0 x → x ∈ names ∧ y ∈ names) ∧
      (∀ e ∈ g0.edges, e.source ∈ depsOf g0 e.target ∧ e.source ≠ e.target) := by
    constructor
    · intro x y hy
      rw [hg0, depsOf_foldl_addOperation] at hy
      cases hy
    · intro e hme
      rw [hg0, edges_foldl_addOperation] at hme
      cases hme
  refine foldl_inv (fun g => (∀ x y, y ∈ depsOf g x → x ∈ names ∧ y ∈ names) ∧
      (∀ e ∈ g.edges, e.source ∈ depsOf g e.target ∧ e.source ≠ e.target))
    _ ops g0 hbase ?_
  intro g op hop hg
  refine foldl_inv (fun g => (∀ x y, y ∈ depsOf g x → x ∈ names ∧ y ∈ names) ∧
      (∀ e ∈ g.edges, e.source ∈ depsOf g e.target ∧ e.source ≠ e.target))
    _ op.inputs g hg ?_
  intro g2 inp _ hg2
  refine foldl_inv (fun g => (∀ x y, y ∈ depsOf g x → x ∈ names ∧ y ∈ names) ∧
      (∀ e ∈ g.edges, e.source ∈ depsOf g e.target ∧ e.source ≠ e.target))
    _ ((dget? producers inp).getD []) g2 hg2 ?_
  intro g3 p hp hg3
  by_cases hpn : p = op.name
  · rw [if_pos hpn]
    exact hg3
  · rw [if_neg hpn]
    have hpnames : p ∈ names := by
      cases hpo : dget? producers inp with
      | none => rw [hpo] at hp; simp at hp
      | some vs =>
        rw [hpo] at hp
        simp only [Option.getD_some] at hp
        exact producers_values ops inp vs hpo p hp
    exact buildInv_addDependency hg3.1 hg3.2 hpnames (List.mem_map.mpr ⟨op, hop, rfl⟩) hpn

theorem buildGraph_operations (ops : List OperationMetadata) :
    (buildGraph ops).operations = dictOfOps ops := by
  unfold buildGraph
  have h2 : ∀ (l : List OperationMetadata) (g : DataFlowGraph)
      (f : DataFlowGraph → OperationMetadata → DataFlowGraph),
      (∀ g op, (f g op).operations = g.operations) →
      (l.foldl f g).operations = g.operations := by
    intro l
    induction l with
    | nil => intro g f _; rfl
    | cons op rest ih => intro g f hf; rw [List.foldl_cons, ih _ _ hf, hf]
  rw [h2]
  · rw [operations_foldl_addOperation]
    rfl
  · intro g op
    have h3 : ∀ (l : List String) (g : DataFlowGraph)
        (f : DataFlowGraph → String → DataFlowGraph),
        (∀ g x, (f g x).operations = g.operations) →
        (l.foldl f g).operations = g.operations := by
      intro l
      induction l with
      | nil => intro g f _; rfl
      | cons x rest ih => intro g f hf; rw [List.foldl_cons, ih _ _ hf, hf]
    rw [h3]
    intro g2 inp
    rw [h3]
    intro g3 p
    by_cases hpn : p = op.name
    · rw [if_pos hpn]
    · rw [if_neg hpn]
      rfl

theorem opKeys_buildGraph_mem (ops : List OperationMetadata) (m : String) :
    m ∈ opKeys (buildGraph ops) ↔ m ∈ ops.map (·.name) := by
  rw [opKeys, buildGraph_operations]
  exact mem_keys_dictOfOps ops m

theorem opKeys_buildGraph_nodup {ops : List OperationMetadata}
    (hnd : (ops.map (·.name)).Nodup) : opKeys (buildGraph ops) = ops.map (·.name) := by
  rw [opKeys, buildGraph_operations]
  exact dictOfOps_keys hnd

/-! ### Cycle detection: a `true` answer always exhibits a real cycle -/

theorem cycleVisit_true {adj : String → List String} :
    ∀ (fuel : Nat) (node : String) (stack visited : List String),
      (∀ s ∈ stack, Relation.TransGen (Dep adj) s node) →
      (cycleVisit adj fuel node stack visited).1 = true →
      ∃ x, Relation.TransGen (Dep adj) x x := by
  intro fuel
  induction fuel with
  | zero => intro node stack visited _ h; cases h
  | succ f ih =>
    intro node stack visited hst hres
    rw [cycleVisit] at hres
    refine foldl_inv
      (fun r : Bool × List String => r.1 = true → ∃ x, Relation.TransGen (Dep adj) x x)
      _ (adj node) (false, node :: visited) (fun h => by cases h) ?_ hres
    intro r nb hnb hr
    by_cases h1 : r.1 = true
    · rw [if_pos h1]
      exact fun _ => hr h1
    · rw [if_neg h1]
      by_cases h2 : nb ∈ r.2
      · rw [if_pos h2]
        by_cases h3 : nb ∈ node :: stack
        · rw [if_pos h3]
          intro _
          rcases List.mem_cons.mp h3 with h4 | h4
          · subst h4
            exact ⟨nb, Relation.TransGen.single hnb⟩
          · exact ⟨nb, Relation.TransGen.tail (hst nb h4) hnb⟩
        · rw [if_neg h3]
          exact hr
      · rw [if_neg h2]
        refine ih nb (node :: stack) r.2 ?_
        intro s hs
        rcases List.mem_cons.mp hs with h4 | h4
        · subst h4
          exact Relation.TransGen.single hnb
        · exact Relation.TransGen.tail (hst s h4) hnb

theorem cycleFrom_true {adj : String → List String} (fuel : Nat) (roots : List String) :
    (cycleFrom adj fuel roots).1 = true → ∃ x, Relation.TransGen (Dep adj) x x := by
  unfold cycleFrom
  refine foldl_inv
    (fun r : Bool × List String => r.1 = true → ∃ x, Relation.TransGen (Dep adj) x x)
    _ roots (false, []) (fun h => by cases h) ?_
  intro r n _ hr
  by_cases h1 : r.1 = true
  · rw [if_pos h1]
    exact fun _ => hr h1
  · rw [if_neg h1]
    by_cases h2 : n ∈ r.2
    · rw [if_pos h2]
      exact hr
    · rw [if_neg h2]
      exact cycleVisit_true fuel n [] r.2 (by intro s hs; cases hs)

/-! ### Fuel accounting -/

theorem filter_length_mono {N vis vis' : List String} (h : ∀ x ∈ vis, x ∈ vis') :
    (N.filter (fun x => decide (x ∉ vis'))).length ≤
      (N.filter (fun x => decide (x ∉ vis))).length := by
  induction N with
  | nil => simp
  | cons a N' ih =>
    by_cases h1 : a ∈ vis'
    · by_cases h2 : a ∈ vis
      · simp only [List.filter_cons, h1, h2]
        simpa using ih
      · simp only [List.filter_cons, h1, h2]
        simp only [not_true, decide_False, decide_True, not_false_iff]
        calc (N'.filter (fun x => decide (x ∉ vis'))).length ≤
              (N'.filter (fun x => decide (x ∉ vis))).length := ih
          _ ≤ (a :: N'.filter (fun x => decide (x ∉ vis))).length := by simp
    · have h2 : a ∉ vis := fun hx => h1 (h a hx)
      simp only [List.filter_cons, h1, h2]
      simpa using ih

theorem filter_length_lt {N vis : List String} {node : String} (hN : node ∈ N)
    (hnv : node ∉ vis) :
    (N.filter (fun x => decide (x ∉ node :: vis))).length <
      (N.filter (fun x => decide (x ∉ vis))).length := by
  induction N with
  | nil => cases hN
  | cons a N' ih =>
    by_cases ha : a = node
    · subst ha
      have h1 : (a ∈ a :: vis) := List.mem_cons_self _ _
      simp only [List.filter_cons, h1, hnv]
      simp only [not_true, decide_False, decide_True, not_false_iff]
      have := @filter_length_mono N' vis (a :: vis)
        (fun x hx => List.mem_cons_of_mem _ hx)
      simpa using Nat.lt_succ_of_le this
    · have hN' : node ∈ N' := by
        rcases List.mem_cons.mp hN with h | h
        · exact absurd h.symm ha
        · exact h
      by_cases h2 : a ∈ vis
      · have h3 : a ∈ node :: vis := List.mem_cons_of_mem _ h2
        simp only [List.filter_cons, h2, h3]
        simpa using ih hN'
      · have h3 : a ∉ node :: vis := by
          intro hx
          rcases List.mem_cons.mp hx with h | h
          · exact ha h
          · exact h2 h
        simp only [List.filter_cons, h2, h3]
        simp only [not_false_iff, decide_True]
        simpa using Nat.succ_lt_succ (ih hN')

/-- Following dependencies never leaves a dependency-closed set. -/
theorem reach_closed {adj : String → List String} {S : String → Prop}
    (hS : ∀ x, S x → ∀ y ∈ adj x, S y) {a b : String}
    (hab : Relation.ReflTransGen (Dep adj) a b) (ha : S a) : S b := by
  induction hab with
  | refl => exact ha
  | tail _ hcb ih => exact hS _ ih _ hcb

/-! ### Cycle detection: a `false` answer means no cycle exists -/

theorem cycleVisit_succ (adj : String → List String) (f : Nat) (node : String)
    (stack visited : List String) :
    cycleVisit adj (f+1) node stack visited =
      (adj node).foldl (cycleStep adj f node stack) (false, node :: visited) := rfl

theorem cycleFrom_eq (adj : String → List String) (fuel : Nat) (roots : List String) :
    cycleFrom adj fuel roots = roots.foldl (cycleRootStep adj fuel) (false, []) := rfl

theorem foldl_sticky {β : Type} (step : Bool × List String → β → Bool × List String)
    (hstep : ∀ r b, r.1 = true → step r b = r) :
    ∀ (l : List β) (r : Bool × List String), r.1 = true → (l.foldl step r).1 = true := by
  intro l
  induction l with
  | nil => intro r h; exact h
  | cons b rest ih =>
    intro r h
    rw [List.foldl_cons, hstep r b h]
    exact ih r h

theorem cycleStep_sticky (adj : String → List String) (f : Nat) (node : String)
    (stack : List String) (r : Bool × List String) (nb : String) (h : r.1 = true) :
    cycleStep adj f node stack r nb = r := by
  rw [cycleStep, if_pos h]

theorem cycleFold_false {adj : String → List String} {N : List String}
    (hcl : AdjClosed adj N) {f : Nat} (hIH : CycleVisitOK adj N f)
    (node : String) (stack : List String) :
    ∀ (l : List String), (∀ nb ∈ l, nb ∈ adj node) →
    ∀ (r0 : Bool × List String), r0.1 = false →
    (∀ x ∈ node :: stack, x ∈ r0.2) → (∀ x ∈ r0.2, x ∈ N) →
    SettledOK adj r0.2 (node :: stack) →
    (N.filter (fun x => decide (x ∉ r0.2))).length < f →
    (l.foldl (cycleStep adj f node stack) r0).1 = false →
    (∀ x ∈ r0.2, x ∈ (l.foldl (cycleStep adj f node stack) r0).2) ∧
    (∀ x ∈ (l.foldl (cycleStep adj f node stack) r0).2, x ∈ N) ∧
    SettledOK adj (l.foldl (cycleStep adj f node stack) r0).2 (node :: stack) ∧
    (∀ nb ∈ l, nb ∈ (l.foldl (cycleStep adj f node stack) r0).2 ∧ nb ∉ node :: stack) := by
  intro l
  induction l with
  | nil =>
    intro _ r0 _ hmono hr0N hr0set _ _
    exact ⟨fun x hx => hx, hr0N, hr0set, by intro nb h; cases h⟩
  | cons nb rest ihl =>
    intro hladj r0 hr0 hmono hr0N hr0set hfuel hres
    rw [List.foldl_cons] at hres ⊢
    have hstep1 : cycleStep adj f node stack r0 nb =
        if nb ∈ r0.2 then
          (if nb ∈ node :: stack then (true, r0.2) else r0)
        else cycleVisit adj f nb (node :: stack) r0.2 := by
      rw [cycleStep, if_neg (by rw [hr0]; exact Bool.false_ne_true)]
    by_cases h2 : nb ∈ r0.2
    · by_cases h3 : nb ∈ node :: stack
      · rw [hstep1, if_pos h2, if_pos h3] at hres
        have : (rest.foldl (cycleStep adj f node stack) ((true, r0.2) : Bool × List String)).1
            = true :=
          foldl_sticky _ (cycleStep_sticky adj f node stack) rest _ rfl
        rw [hres] at this
        cases this
      · rw [hstep1, if_pos h2, if_neg h3] at hres ⊢
        obtain ⟨c1, c2, c3, c4⟩ := ihl (fun x hx => hladj x (List.mem_cons_of_mem _ hx)) r0 hr0 hmono hr0N hr0set hfuel hres
        exact ⟨c1, c2, c3, by
          intro nb' hnb'
          rcases List.mem_cons.mp hnb' with h | h
          · subst h
            exact ⟨c1 nb' h2, h3⟩
          · exact c4 nb' h⟩
    · rw [hstep1, if_neg h2] at hres ⊢
      by_cases hflag : (cycleVisit adj f nb (node :: stack) r0.2).1 = true
      · have : (rest.foldl (cycleStep adj f node stack)
            (cycleVisit adj f nb (node :: stack) r0.2)).1 = true :=
          foldl_sticky _ (cycleStep_sticky adj f node stack) rest _ hflag
        rw [hres] at this
        cases this
      · have hflag' : (cycleVisit adj f nb (node :: stack) r0.2).1 = false := by
          cases h : (cycleVisit adj f nb (node :: stack) r0.2).1
          · rfl
          · exact absurd h hflag
        have hnbN : nb ∈ N := (hcl node nb (hladj nb (List.mem_cons_self _ _))).2
        obtain ⟨d1, d2, d3, d4⟩ := hIH nb (node :: stack) r0.2 hnbN h2 hmono hr0N hr0set
          hfuel hflag'
        have hmono' : ∀ x ∈ node :: stack, x ∈ (cycleVisit adj f nb (node :: stack) r0.2).2 :=
          fun x hx => d1 x (hmono x hx)
        have hfuel' :
            (N.filter (fun x => decide (x ∉ (cycleVisit adj f nb (node :: stack) r0.2).2))).length
              < f :=
          Nat.lt_of_le_of_lt (filter_length_mono d1) hfuel
        obtain ⟨c1, c2, c3, c4⟩ := ihl (fun x hx => hladj x (List.mem_cons_of_mem _ hx))
          (cycleVisit adj f nb (node :: stack) r0.2) hflag' hmono' d3 d4 hfuel' hres
        refine ⟨fun x hx => c1 x (d1 x hx), c2, c3, ?_⟩
        intro nb' hnb'
        rcases List.mem_cons.mp hnb' with h | h
        · subst h
          exact ⟨c1 nb' d2, fun hx => h2 (hmono nb' hx)⟩
        · exact c4 nb' h

theorem cycleVisit_false {adj : String → List String} {N : List String}
    (hcl : AdjClosed adj N) : ∀ f : Nat, CycleVisitOK adj N f := by
  intro f
  induction f with
  | zero =>
    intro node stack visited _ _ _ _ _ hfuel _
    exact absurd hfuel (Nat.not_lt_zero _)
  | succ f ihf =>
    intro node stack visited hN hnv hsv hvN hset hfuel hres
    rw [cycleVisit_succ] at hres ⊢
    have hvis1N : ∀ x ∈ node :: visited, x ∈ N := by
      intro x hx
      rcases List.mem_cons.mp hx with h | h
      · exact h ▸ hN
      · exact hvN x h
    have hmono1 : ∀ x ∈ node :: stack, x ∈ node :: visited := by
      intro x hx
      rcases List.mem_cons.mp hx with h | h
      · exact h ▸ List.mem_cons_self _ _
      · exact List.mem_cons_of_mem _ (hsv x h)
    have hset1 : SettledOK adj (node :: visited) (node :: stack) := by
      constructor
      · intro x hx hxs y hy
        have hxv : x ∈ visited := by
          rcases List.mem_cons.mp hx with h | h
          · exact absurd (h ▸ List.mem_cons_self node stack) hxs
          · exact h
        have hxs' : x ∉ stack := fun h => hxs (List.mem_cons_of_mem _ h)
        obtain ⟨h1, h2⟩ := hset.1 x hxv hxs' y hy
        refine ⟨List.mem_cons_of_mem _ h1, ?_⟩
        intro hy2
        rcases List.mem_cons.mp hy2 with h | h
        · exact hnv (h ▸ h1)
        · exact h2 h
      · intro x hx hxs
        have hxv : x ∈ visited := by
          rcases List.mem_cons.mp hx with h | h
          · exact absurd (h ▸ List.mem_cons_self node stack) hxs
          · exact h
        exact hset.2 x hxv (fun h => hxs (List.mem_cons_of_mem _ h))
    have hfuel1 : (N.filter (fun x => decide (x ∉ node :: visited))).length < f := by
      have hlt := filter_length_lt hN hnv
      omega
    obtain ⟨c1, c2, c3, c4⟩ := cycleFold_false hcl ihf node stack (adj node)
      (fun nb h => h) (false, node :: visited) rfl hmono1 hvis1N hset1 hfuel1 hres
    refine ⟨fun x hx => c1 x (List.mem_cons_of_mem _ hx),
      c1 node (List.mem_cons_self _ _), c2, ?_, ?_⟩
    · -- the settled set w.r.t. the caller's stack is closed
      intro x hx hxs y hy
      by_cases hxn : x = node
      · subst hxn
        obtain ⟨e1, e2⟩ := c4 y hy
        exact ⟨e1, fun h => e2 (List.mem_cons_of_mem _ h)⟩
      · have hxs' : x ∉ node :: stack := by
          intro h
          rcases List.mem_cons.mp h with h | h
          · exact hxn h
          · exact hxs h
        obtain ⟨e1, e2⟩ := c3.1 x hx hxs' y hy
        exact ⟨e1, fun h => e2 (List.mem_cons_of_mem _ h)⟩
    · -- the settled set w.r.t. the caller's stack is cycle-free
      intro x hx hxs
      by_cases hxn : x = node
      · subst hxn
        intro hcyc
        have hS : ∀ z, (z ∈ (((adj x).foldl (cycleStep adj f x stack)
              (false, x :: visited)).2) ∧ z ∉ x :: stack) →
            ∀ y ∈ adj z, y ∈ (((adj x).foldl (cycleStep adj f x stack)
              (false, x :: visited)).2) ∧ y ∉ x :: stack := by
          intro z hz y hy
          exact c3.1 z hz.1 hz.2 y hy
        obtain ⟨b, hb, hbx⟩ := Relation.TransGen.head'_iff.mp hcyc
        obtain ⟨e1, e2⟩ := c4 b hb
        have := reach_closed hS hbx ⟨e1, e2⟩
        exact this.2 (List.mem_cons_self _ _)
      · have hxs' : x ∉ node :: stack := by
          intro h
          rcases List.mem_cons.mp h with h | h
          · exact hxn h
          · exact hxs h
        exact c3.2 x hx hxs'

theorem cycleRootStep_sticky (adj : String → List String) (fuel : Nat)
    (r : Bool × List String) (n : String) (h : r.1 = true) :
    cycleRootStep adj fuel r n = r := by
  rw [cycleRootStep, if_pos h]

theorem cycleVisit_mono {adj : String → List String} :
    ∀ (fuel : Nat) (node : String) (stack visited : List String),
      ∀ x ∈ visited, x ∈ (cycleVisit adj fuel node stack visited).2 := by
  intro fuel
  induction fuel with
  | zero => intro node stack visited x hx; exact hx
  | succ f ih =>
    intro node stack visited x hx
    rw [cycleVisit_succ]
    refine foldl_inv (fun r : Bool × List String => x ∈ r.2) _ (adj node)
      (false, node :: visited) (List.mem_cons_of_mem _ hx) ?_
    intro r nb _ hr
    rw [cycleStep]
    by_cases hb : r.1 = true
    · rw [if_pos hb]
      exact hr
    · rw [if_neg hb]
      by_cases hm : nb ∈ r.2
      · rw [if_pos hm]
        by_cases hs : nb ∈ node :: stack
        · rw [if_pos hs]
          exact hr
        · rw [if_neg hs]
          exact hr
      · rw [if_neg hm]
        exact ih nb (node :: stack) r.2 x hr

theorem cycleRootGo_mono {adj : String → List String} (fuel : Nat) (rest : List String)
    (r0 : Bool × List String) :
    ∀ x ∈ r0.2, x ∈ (rest.foldl (cycleRootStep adj fuel) r0).2 := by
  intro x hx
  refine foldl_inv (fun r : Bool × List String => x ∈ r.2) _ rest r0 hx ?_
  intro r n _ hr
  rw [cycleRootStep]
  by_cases hb : r.1 = true
  · rw [if_pos hb]
    exact hr
  · rw [if_neg hb]
    by_cases hm : n ∈ r.2
    · rw [if_pos hm]
      exact hr
    · rw [if_neg hm]
      exact cycleVisit_mono fuel n [] r.2 x hr

theorem cycleFromGo_false {adj : String → List String} {N : List String}
    (hcl : AdjClosed adj N) (fuel : Nat) (hfuelN : N.length < fuel) :
    ∀ (roots : List String), (∀ x ∈ roots, x ∈ N) →
    ∀ (r0 : Bool × List String), r0.1 = false → (∀ x ∈ r0.2, x ∈ N) →
    SettledOK adj r0.2 [] →
    (roots.foldl (cycleRootStep adj fuel) r0).1 = false →
    (∀ x ∈ roots, x ∈ (roots.foldl (cycleRootStep adj fuel) r0).2) ∧
    SettledOK adj (roots.foldl (cycleRootStep adj fuel) r0).2 [] := by
  intro roots
  induction roots with
  | nil =>
    intro _ r0 _ _ hset _
    exact ⟨(by intro x h; cases h), hset⟩
  | cons n rest ih =>
    intro hroots r0 hr0 hr0N hset hres
    rw [List.foldl_cons] at hres ⊢
    have hstep : cycleRootStep adj fuel r0 n =
        if n ∈ r0.2 then r0 else cycleVisit adj fuel n [] r0.2 := by
      rw [cycleRootStep, if_neg (by rw [hr0]; exact Bool.false_ne_true)]
    by_cases h2 : n ∈ r0.2
    · rw [hstep, if_pos h2] at hres ⊢
      obtain ⟨c1, c2⟩ := ih (fun x hx => hroots x (List.mem_cons_of_mem _ hx)) r0 hr0
        hr0N hset hres
      refine ⟨?_, c2⟩
      intro x hx
      rcases List.mem_cons.mp hx with h | h
      · subst h
        exact cycleRootGo_mono fuel rest r0 x h2
      · exact c1 x h
    · rw [hstep, if_neg h2] at hres ⊢
      by_cases hflag : (cycleVisit adj fuel n [] r0.2).1 = true
      · have : (rest.foldl (cycleRootStep adj fuel) (cycleVisit adj fuel n [] r0.2)).1 = true :=
          foldl_sticky _ (cycleRootStep_sticky adj fuel) rest _ hflag
        rw [hres] at this
        cases this
      · have hflag' : (cycleVisit adj fuel n [] r0.2).1 = false := by
          cases h : (cycleVisit adj fuel n [] r0.2).1
          · rfl
          · exact absurd h hflag
        have hfuel0 : (N.filter (fun x => decide (x ∉ r0.2))).length < fuel :=
          Nat.lt_of_le_of_lt (List.length_filter_le _ _) hfuelN
        obtain ⟨d1, d2, d3, d4⟩ := cycleVisit_false hcl fuel n [] r0.2
          (hroots n (List.mem_cons_self _ _)) h2 (by intro x h; cases h) hr0N hset
          hfuel0 hflag'
        obtain ⟨c1, c2⟩ := ih (fun x hx => hroots x (List.mem_cons_of_mem _ hx))
          (cycleVisit adj fuel n [] r0.2) hflag' d3 d4 hres
        refine ⟨?_, c2⟩
        intro x hx
        rcases List.mem_cons.mp hx with h | h
        · subst h
          exact cycleRootGo_mono fuel rest _ x d2
        · exact c1 x h

/-- Soundness of `has_cycle` on built graphs: a `false` answer means the
dependency relation has no cycle through any operation. -/
theorem hasCycle_false_acyc {ops : List OperationMetadata}
    (h : hasCycle (buildGraph ops) = false) :
    Acyc (depsOf (buildGraph ops)) (opKeys (buildGraph ops)) := by
  have hcl : AdjClosed (depsOf (buildGraph ops)) (opKeys (buildGraph ops)) := by
    intro x y hy
    obtain ⟨h1, h2⟩ := (buildGraph_inv ops).1 x y hy
    exact ⟨(opKeys_buildGraph_mem ops x).mpr h1, (opKeys_buildGraph_mem ops y).mpr h2⟩
  have hfuelN : (opKeys (buildGraph ops)).length < graphFuel (buildGraph ops) := by
    rw [opKeys, graphFuel, List.length_map]
    omega
  rw [hasCycle, cycleFrom_eq] at h
  obtain ⟨c1, c2⟩ := cycleFromGo_false hcl (graphFuel (buildGraph ops)) hfuelN
    (opKeys (buildGraph ops)) (fun x hx => hx) (false, []) rfl (by intro x hx; cases hx)
    ⟨(by intro x hx; cases hx), (by intro x hx; cases hx)⟩ h
  intro x hx
  exact c2.2 x (c1 x hx) (by intro hh; cases hh)

/-! ### Topological sort: helper lemmas -/

theorem topoVisit_succ (adj : String → List String) (f : Nat) (node : String)
    (st : List String × List String) :
    topoVisit adj (f+1) node st =
      if node ∈ st.1 then st
      else (((adj node).foldl (topoStep adj f) (node :: st.1, st.2)).1,
            ((adj node).foldl (topoStep adj f) (node :: st.1, st.2)).2 ++ [node]) := rfl

theorem topoRun_eq (adj : String → List String) (fuel : Nat) (roots : List String) :
    topoRun adj fuel roots = roots.foldl (topoStep adj fuel) ([], []) := rfl

theorem ordClosed_nil (adj : String → List String) : OrdClosed adj [] := by
  intro l₁ t l₂ he
  exact absurd he.symm (List.append_ne_nil_of_right_ne_nil _ (List.cons_ne_nil _ _))

theorem ordClosed_append {adj : String → List String} {res : List String} {node : String}
    (h : OrdClosed adj res) (hdeps : ∀ s ∈ adj node, s ∈ res) :
    OrdClosed adj (res ++ [node]) := by
  intro l₁ t l₂ he s hs
  rcases List.eq_nil_or_concat l₂ with h2 | ⟨l₂', a, h2⟩
  · subst h2
    obtain ⟨h3, h4⟩ := List.append_inj' he (by simp)
    have ht : node = t := by
      have := List.cons.inj h4
      exact this.1
    subst h3
    exact hdeps s (ht ▸ hs)
  · subst h2
    have he' : res ++ [node] = (l₁ ++ t :: l₂') ++ [a] := by
      rw [he]
      simp
    obtain ⟨h3, _⟩ := List.append_inj' he' (by simp)
    exact h l₁ t l₂' h3 s hs

theorem Ext_refl {adj : String → List String} {N vis res : List String}
    (hvN : ∀ x ∈ vis, x ∈ N) (hrv : ∀ x ∈ res, x ∈ vis) :
    Ext adj N vis res vis res := by
  refine ⟨fun x hx => hx, hvN, ⟨[], by simp, by intro x hx; cases hx⟩, hrv,
    fun g hg hgr => ⟨hg, hgr⟩, fun x hx => Or.inl hx, id, id⟩

theorem Ext_trans {adj : String → List String} {N v0 r0 v1 r1 v2 r2 : List String}
    (h1 : Ext adj N v0 r0 v1 r1) (h2 : Ext adj N v1 r1 v2 r2) :
    Ext adj N v0 r0 v2 r2 := by
  obtain ⟨a1, a2, ⟨d1, hd1, hf1⟩, a4, a5, a6, a7, a8⟩ := h1
  obtain ⟨b1, b2, ⟨d2, hd2, hf2⟩, b4, b5, b6, b7, b8⟩ := h2
  refine ⟨fun x hx => b1 (a1 hx), b2, ⟨d1 ++ d2, by rw [hd2, hd1, List.append_assoc], ?_⟩,
    b4, ?_, ?_, fun h => b7 (a7 h), fun h => b8 (a8 h)⟩
  · intro x hx
    rcases List.mem_append.mp hx with h | h
    · exact hf1 x h
    · exact fun hv => hf2 x h (a1 hv)
  · intro g hg hgr
    obtain ⟨e1, e2⟩ := b5 g hg hgr
    exact a5 g e1 e2
  · intro x hx
    rcases b6 x hx with h | h
    · rcases a6 x h with h' | h'
      · exact Or.inl h'
      · refine Or.inr ?_
        rw [hd2]
        exact List.mem_append.mpr (Or.inl h')
    · exact Or.inr h

theorem keys_dinsert_nodup {κ α : Type} [DecidableEq κ] (k : κ) (v : α)
    {d : List (κ × α)} (h : (d.map (·.1)).Nodup) : ((dinsert k v d).map (·.1)).Nodup := by
  by_cases hk : k ∈ d.map (·.1)
  · have : ∀ (d' : List (κ × α)), (d'.map (·.1)).Nodup → k ∈ d'.map (·.1) →
        ((dinsert k v d').map (·.1)).Nodup := by
      intro d'
      induction d' with
      | nil => intro _ h2; cases h2
      | cons q rest ih =>
        obtain ⟨k', v'⟩ := q
        intro hnd hmem
        simp only [List.map_cons, List.nodup_cons] at hnd
        by_cases hkk : k' = k
        · subst hkk
          rw [dinsert, if_pos rfl]
          simp only [List.map_cons, List.nodup_cons]
          exact hnd
        · rw [dinsert, if_neg hkk]
          simp only [List.map_cons, List.nodup_cons]
          have hmem' : k ∈ rest.map (·.1) := by
            rcases List.mem_cons.mp hmem with h | h
            · exact absurd h.symm hkk
            · exact h
          refine ⟨?_, ih hnd.2 hmem'⟩
          intro hc
          rw [keys_dinsert_mem] at hc
          rcases hc with h | h
          · exact hkk h
          · exact hnd.1 h
    exact this d h hk
  · rw [keys_dinsert_fresh v hk]
    simp only [List.nodup_append]
    exact ⟨h, List.nodup_singleton _, by
      intro a ha hb
      rw [List.mem_singleton] at hb
      exact hk (hb ▸ ha)⟩

theorem dictOfOps_keys_nodup (ops : List OperationMetadata) :
    ((dictOfOps ops).map (·.1)).Nodup := by
  unfold dictOfOps
  refine foldl_inv (fun d : List (String × OperationMetadata) => (d.map (·.1)).Nodup)
    _ ops [] (by simp) ?_
  intro d op _ hd
  exact keys_dinsert_nodup op.name op hd

theorem opKeys_nodup (ops : List OperationMetadata) : (opKeys (buildGraph ops)).Nodup := by
  rw [opKeys, buildGraph_operations]
  exact dictOfOps_keys_nodup ops

/-! ### Topological sort: main invariant -/

theorem topoFold {adj : String → List String} {N : List String}
    (hcl : AdjClosed adj N) (hacyc : Acyc adj N) {f : Nat} (hIH : TopoVisitOK adj N f)
    (parent : String) :
    ∀ (l : List String), (∀ d ∈ l, d ∈ adj parent) →
    ∀ (st0 : List String × List String),
      (∀ x ∈ st0.1, x ∈ N) → (∀ x ∈ st0.2, x ∈ st0.1) →
      (∀ g ∈ st0.1, g ∉ st0.2 → Relation.ReflTransGen (Dep adj) g parent) →
      (N.filter (fun x => decide (x ∉ st0.1))).length < f →
      Ext adj N st0.1 st0.2 (l.foldl (topoStep adj f) st0).1 (l.foldl (topoStep adj f) st0).2 ∧
      (∀ d ∈ l, d ∈ (l.foldl (topoStep adj f) st0).2) := by
  intro l
  induction l with
  | nil =>
    intro _ st0 hvN hrv _ _
    exact ⟨Ext_refl hvN hrv, by intro d hd; cases hd⟩
  | cons d rest ihl =>
    intro hladj st0 hvN hrv hgray hfuel
    rw [List.foldl_cons]
    have hdadj : d ∈ adj parent := hladj d (List.mem_cons_self _ _)
    have hdN : d ∈ N := (hcl parent d hdadj).2
    have hpre : TopoPre adj N d st0.1 st0.2 := by
      refine ⟨hdN, hvN, hrv, ?_⟩
      intro g hg hgr
      exact Relation.TransGen.tail' (hgray g hg hgr) hdadj
    obtain ⟨e1, e2, e3, e4⟩ := hIH d st0 hpre hacyc hfuel
    have hst1 := topoStep adj f st0 d
    -- d is black after its own visit
    have hdblack : d ∈ (topoStep adj f st0 d).2 := by
      by_cases hdv : d ∈ st0.1
      · rw [show topoStep adj f st0 d = topoVisit adj f d st0 from rfl, e4 hdv]
        by_cases hdr : d ∈ st0.2
        · exact hdr
        · exact absurd (Relation.TransGen.tail' (hgray d hdv hdr) hdadj) (hacyc d hdN)
      · exact e3 hdv
    obtain ⟨a1, a2, ⟨d1, hd1, hf1⟩, a4, a5, a6, a7, a8⟩ := e1
    have hst1vN : ∀ x ∈ (topoStep adj f st0 d).1, x ∈ N := a2
    have hst1rv : ∀ x ∈ (topoStep adj f st0 d).2, x ∈ (topoStep adj f st0 d).1 := a4
    have hst1gray : ∀ g ∈ (topoStep adj f st0 d).1, g ∉ (topoStep adj f st0 d).2 →
        Relation.ReflTransGen (Dep adj) g parent := by
      intro g hg hgr
      obtain ⟨e5, e6⟩ := a5 g hg hgr
      exact hgray g e5 e6
    have hst1fuel : (N.filter (fun x => decide (x ∉ (topoStep adj f st0 d).1))).length < f :=
      Nat.lt_of_le_of_lt (filter_length_mono a1) hfuel
    obtain ⟨c1, c2⟩ := ihl (fun x hx => hladj x (List.mem_cons_of_mem _ hx))
      (topoStep adj f st0 d) hst1vN hst1rv hst1gray hst1fuel
    refine ⟨Ext_trans ⟨a1, a2, ⟨d1, hd1, hf1⟩, a4, a5, a6, a7, a8⟩ c1, ?_⟩
    intro d' hd'
    rcases List.mem_cons.mp hd' with h | h
    · subst h
      obtain ⟨_, _, ⟨d2, hd2, _⟩, _, _, _, _, _⟩ := c1
      rw [hd2]
      exact List.mem_append.mpr (Or.inl hdblack)
    · exact c2 d' h

theorem topoVisit_ok {adj : String → List String} {N : List String}
    (hcl : AdjClosed adj N) : ∀ f : Nat, TopoVisitOK adj N f := by
  intro f
  induction f with
  | zero =>
    intro node st _ _ hfuel
    exact absurd hfuel (Nat.not_lt_zero _)
  | succ f ihf =>
    intro node st hpre hacyc hfuel
    obtain ⟨hN, hvN, hrv, hgray⟩ := hpre
    rw [topoVisit_succ]
    by_cases hv : node ∈ st.1
    · rw [if_pos hv]
      exact ⟨Ext_refl hvN hrv, hv, fun h => absurd hv h, fun _ => rfl⟩
    · rw [if_neg hv]
      have hvN1 : ∀ x ∈ node :: st.1, x ∈ N := by
        intro x hx
        rcases List.mem_cons.mp hx with h | h
        · exact h ▸ hN
        · exact hvN x h
      have hrv1 : ∀ x ∈ st.2, x ∈ node :: st.1 :=
        fun x hx => List.mem_cons_of_mem _ (hrv x hx)
      have hgray1 : ∀ g ∈ node :: st.1, g ∉ st.2 →
          Relation.ReflTransGen (Dep adj) g node := by
        intro g hg hgr
        rcases List.mem_cons.mp hg with h | h
        · exact h ▸ Relation.ReflTransGen.refl
        · exact (hgray g h hgr).to_reflTransGen
      have hfuel1 : (N.filter (fun x => decide (x ∉ node :: st.1))).length < f := by
        have hlt := filter_length_lt hN hv
        omega
      obtain ⟨hext, hdeps⟩ := topoFold hcl hacyc ihf node (adj node) (fun x hx => hx)
        (node :: st.1, st.2) hvN1 hrv1 hgray1 hfuel1
      obtain ⟨a1, a2, ⟨d1, hd1, hf1⟩, a4, a5, a6, a7, a8⟩ := hext
      have hnodest2 : node ∈ ((adj node).foldl (topoStep adj f) (node :: st.1, st.2)).1 :=
        a1 (List.mem_cons_self _ _)
      have hnodenotres : node ∉ ((adj node).foldl (topoStep adj f) (node :: st.1, st.2)).2 := by
        rw [hd1]
        intro hc
        rcases List.mem_append.mp hc with h | h
        · exact hv (hrv node h)
        · exact hf1 node h (List.mem_cons_self _ _)
      refine ⟨?_, hnodest2, fun _ => List.mem_append.mpr (Or.inr (List.mem_singleton.mpr rfl)),
        fun h => absurd h hv⟩
      refine ⟨fun x hx => a1 (List.mem_cons_of_mem _ hx), a2,
        ⟨d1 ++ [node], by rw [hd1, List.append_assoc], ?_⟩, ?_, ?_, ?_, ?_, ?_⟩
      · intro x hx
        rcases List.mem_append.mp hx with h | h
        · intro hc
          exact hf1 x h (List.mem_cons_of_mem _ hc)
        · rw [List.mem_singleton] at h
          exact h ▸ hv
      · intro x hx
        rcases List.mem_append.mp hx with h | h
        · exact a4 x h
        · rw [List.mem_singleton] at h
          exact h ▸ hnodest2
      · intro g hg hgr
        have hgr1 : g ∉ ((adj node).foldl (topoStep adj f) (node :: st.1, st.2)).2 :=
          fun h => hgr (List.mem_append.mpr (Or.inl h))
        obtain ⟨e1, e2⟩ := a5 g hg hgr1
        rcases List.mem_cons.mp e1 with h | h
        · exact absurd (List.mem_append.mpr (Or.inr (List.mem_singleton.mpr h)))
            hgr
        · exact ⟨h, e2⟩
      · intro x hx
        rcases a6 x hx with h | h
        · rcases List.mem_cons.mp h with h' | h'
          · exact Or.inr (List.mem_append.mpr (Or.inr (List.mem_singleton.mpr h')))
          · exact Or.inl h'
        · exact Or.inr (List.mem_append.mpr (Or.inl h))
      · intro hnd
        rw [List.nodup_append]
        exact ⟨a7 hnd, List.nodup_singleton _, by
          intro a ha hb
          rw [List.mem_singleton] at hb
          exact hnodenotres (hb ▸ ha)⟩
      · intro hord
        exact ordClosed_append (a8 hord) (fun s hs => hdeps s hs)

theorem topoRunGo {adj : String → List String} {N : List String}
    (hcl : AdjClosed adj N) (hacyc : Acyc adj N) (f : Nat) (hfuelN : N.length < f) :
    ∀ (roots : List String), (∀ x ∈ roots, x ∈ N) →
    ∀ (st0 : List String × List String),
      (∀ x ∈ st0.1, x ∈ N) → (∀ x ∈ st0.2, x ∈ st0.1) → (∀ x ∈ st0.1, x ∈ st0.2) →
      st0.2.Nodup → OrdClosed adj st0.2 →
      (∀ x ∈ st0.2, x ∈ (roots.foldl (topoStep adj f) st0).2) ∧
      (∀ x ∈ roots, x ∈ (roots.foldl (topoStep adj f) st0).2) ∧
      (∀ x ∈ (roots.foldl (topoStep adj f) st0).2, x ∈ N) ∧
      (roots.foldl (topoStep adj f) st0).2.Nodup ∧
      OrdClosed adj (roots.foldl (topoStep adj f) st0).2 := by
  intro roots
  induction roots with
  | nil =>
    intro _ st0 hvN hrv _ hnd hord
    exact ⟨fun x hx => hx, (by intro x hx; cases hx),
      fun x hx => hvN x (hrv x hx), hnd, hord⟩
  | cons n rest ih =>
    intro hroots st0 hvN hrv hblack hnd hord
    rw [List.foldl_cons]
    have hpre : TopoPre adj N n st0.1 st0.2 :=
      ⟨hroots n (List.mem_cons_self _ _), hvN, hrv,
        fun g hg hgr => absurd (hblack g hg) hgr⟩
    have hfuel : (N.filter (fun x => decide (x ∉ st0.1))).length < f :=
      Nat.lt_of_le_of_lt (List.length_filter_le _ _) hfuelN
    obtain ⟨hext, e2, e3, e4⟩ := topoVisit_ok hcl f n st0 hpre hacyc hfuel
    obtain ⟨a1, a2, ⟨d1, hd1, hf1⟩, a4, a5, a6, a7, a8⟩ := hext
    have hst1 := topoStep adj f st0 n
    have hblack1 : ∀ x ∈ (topoVisit adj f n st0).1, x ∈ (topoVisit adj f n st0).2 := by
      intro x hx
      rcases a6 x hx with h | h
      · rw [hd1]
        exact List.mem_append.mpr (Or.inl (hblack x h))
      · exact h
    have hnblack : n ∈ (topoVisit adj f n st0).2 := by
      by_cases hnv : n ∈ st0.1
      · rw [e4 hnv]
        exact hblack n hnv
      · exact e3 hnv
    obtain ⟨c1, c2, c3, c4, c5⟩ := ih (fun x hx => hroots x (List.mem_cons_of_mem _ hx))
      (topoVisit adj f n st0) a2 a4 hblack1 (a7 hnd) (a8 hord)
    refine ⟨?_, ?_, c3, c4, c5⟩
    · intro x hx
      refine c1 x ?_
      rw [hd1]
      exact List.mem_append.mpr (Or.inl hx)
    · intro x hx
      rcases List.mem_cons.mp hx with h | h
      · exact h ▸ c1 n hnblack
      · exact c2 x h

/-- Specification of `topological_sort` on an acyclic built graph: the result is
a permutation of the operation names in which every operation is preceded by all
of its dependencies. -/
theorem topologicalSort_spec {ops : List OperationMetadata}
    (hac : hasCycle (buildGraph ops) = false) :
    topologicalSort (buildGraph ops) =
      .ok (topoRun (depsOf (buildGraph ops)) (graphFuel (buildGraph ops))
        (opKeys (buildGraph ops))).2 ∧
    (topoRun (depsOf (buildGraph ops)) (graphFuel (buildGraph ops))
        (opKeys (buildGraph ops))).2.Perm (opKeys (buildGraph ops)) ∧
    OrdClosed (depsOf (buildGraph ops))
      (topoRun (depsOf (buildGraph ops)) (graphFuel (buildGraph ops))
        (opKeys (buildGraph ops))).2 := by
  have hcl : AdjClosed (depsOf (buildGraph ops)) (opKeys (buildGraph ops)) := by
    intro x y hy
    obtain ⟨h1, h2⟩ := (buildGraph_inv ops).1 x y hy
    exact ⟨(opKeys_buildGraph_mem ops x).mpr h1, (opKeys_buildGraph_mem ops y).mpr h2⟩
  have hacyc := hasCycle_false_acyc hac
  have hfuelN : (opKeys (buildGraph ops)).length < graphFuel (buildGraph ops) := by
    rw [opKeys, graphFuel, List.length_map]
    omega
  obtain ⟨c1, c2, c3, c4, c5⟩ := topoRunGo hcl hacyc (graphFuel (buildGraph ops)) hfuelN
    (opKeys (buildGraph ops)) (fun x hx => hx) ([], [])
    (by intro x hx; cases hx) (by intro x hx; cases hx) (by intro x hx; cases hx)
    List.nodup_nil (ordClosed_nil _)
  rw [topoRun_eq]
  refine ⟨?_, ?_, c5⟩
  · rw [topologicalSort, if_neg (by rw [hac]; exact Bool.false_ne_true), topoRun_eq]
  · exact (List.subperm_of_subset c4 c3).antisymm
      (List.subperm_of_subset (opKeys_nodup ops) c2)

/-! ### Structure of a successful compile -/

theorem compile_ok_parts {ops : List OperationMetadata} {orch : Orchestration}
    (h : compile ops = .ok orch) :
    hasCycle (buildGraph ops) = false ∧
    orch.graph = buildGraph ops ∧ orch.operation_metadata = dictOfOps ops ∧
    ∃ grouped, groupByParent (ops.map (·.name)) = .ok grouped ∧
      createFlowsGo (dictOfOps ops) (buildGraph ops) grouped = .ok orch.flows := by
  unfold compile compileCore at h
  by_cases hc : hasCycle (buildGraph ops) = true
  · rw [if_pos hc] at h
    cases h
  · have hc' : hasCycle (buildGraph ops) = false := by
      cases h2 : hasCycle (buildGraph ops)
      · rfl
      · exact absurd h2 hc
    rw [if_neg hc] at h
    cases hg : groupByParent (ops.map (·.name)) with
    | error e => rw [hg] at h; cases h
    | ok grouped =>
      rw [hg] at h
      dsimp only at h
      cases hf : createFlowsGo (dictOfOps ops) (buildGraph ops) grouped with
      | error e => rw [hf] at h; cases h
      | ok flows =>
        rw [hf] at h
        injection h with h2
        subst h2
        exact ⟨hc', rfl, rfl, grouped, rfl, hf⟩

theorem createFlowsGo_spec {opsDict : List (String × OperationMetadata)}
    {g : DataFlowGraph} :
    ∀ {grouped : List (Option String × List String)} {flows : List FlowDefinition},
      createFlowsGo opsDict g grouped = .ok flows →
      flows.map (·.operations) = grouped.map (·.2) ∧
      ∀ f ∈ flows, ∃ names, f.operations = names ∧
        f.parallel_groups = findParallelGroupsInFlow (names.map (opLookup opsDict)) ∧
        f.dependencies = flowDeps g names ∧ ∃ key, (key, names) ∈ grouped := by
  intro grouped
  induction grouped with
  | nil =>
    intro flows h
    rw [createFlowsGo] at h
    injection h with h2
    subst h2
    exact ⟨rfl, by intro f hf; cases hf⟩
  | cons p rest ih =>
    intro flows h
    obtain ⟨key, names⟩ := p
    cases key with
    | none =>
      rw [createFlowsGo] at h
      cases hrest : createFlowsGo opsDict g rest with
      | error e => rw [hrest] at h; cases h
      | ok fs =>
        rw [hrest] at h
        injection h with h2
        subst h2
        obtain ⟨ih1, ih2⟩ := ih hrest
        constructor
        · simp only [List.map_cons, ih1]
          rfl
        · intro f hf
          rcases List.mem_cons.mp hf with hf1 | hf1
          · subst hf1
            exact ⟨names, rfl, rfl, rfl, none, List.mem_cons_self _ _⟩
          · obtain ⟨ns, e1, e2, e3, k, hk⟩ := ih2 f hf1
            exact ⟨ns, e1, e2, e3, k, List.mem_cons_of_mem _ hk⟩
    | some par =>
      rw [createFlowsGo] at h
      cases hpf : parentFlow opsDict g par names with
      | error e => rw [hpf] at h; cases h
      | ok f0 =>
        rw [hpf] at h
        cases hrest : createFlowsGo opsDict g rest with
        | error e => rw [hrest] at h; cases h
        | ok fs =>
          rw [hrest] at h
          injection h with h2
          subst h2
          obtain ⟨ih1, ih2⟩ := ih hrest
          have hf0 : f0.operations = names ∧
              f0.parallel_groups = findParallelGroupsInFlow (names.map (opLookup opsDict)) ∧
              f0.dependencies = flowDeps g names := by
            rw [parentFlow] at hpf
            cases hp : parseName par with
            | error e => rw [hp] at hpf; cases hpf
            | ok pn =>
              rw [hp] at hpf
              injection hpf with h3
              subst h3
              exact ⟨rfl, rfl, rfl⟩
          constructor
          · simp only [List.map_cons, ih1, hf0.1]
          · intro f hf
            rcases List.mem_cons.mp hf with hf1 | hf1
            · subst hf1
              exact ⟨names, hf0.1, hf0.2.1, hf0.2.2, some par, List.mem_cons_self _ _⟩
            · obtain ⟨ns, e1, e2, e3, k, hk⟩ := ih2 f hf1
              exact ⟨ns, e1, e2, e3, k, List.mem_cons_of_mem _ hk⟩

/-! ### The concurrency criterion is an equivalence -/

theorem setEq_iff {a b : List String} :
    setEq a b = true ↔ ((∀ x ∈ a, x ∈ b) ∧ (∀ x ∈ b, x ∈ a)) := by
  rw [setEq, Bool.and_eq_true, List.all_eq_true, List.all_eq_true]
  constructor
  · intro ⟨h1, h2⟩
    exact ⟨fun x hx => List.elem_iff.mp (h1 x hx), fun x hx => List.elem_iff.mp (h2 x hx)⟩
  · intro ⟨h1, h2⟩
    exact ⟨fun x hx => List.elem_iff.mpr (h1 x hx), fun x hx => List.elem_iff.mpr (h2 x hx)⟩

theorem canRun_refl (a : OperationMetadata) : canRunParallelWith a a = true := by
  rw [canRunParallelWith, Bool.and_eq_true, setEq_iff, setEq_iff]
  exact ⟨⟨fun x hx => hx, fun x hx => hx⟩, ⟨fun x hx => hx, fun x hx => hx⟩⟩

theorem canRun_symm {a b : OperationMetadata} (h : canRunParallelWith a b = true) :
    canRunParallelWith b a = true := by
  rw [canRunParallelWith, Bool.and_eq_true, setEq_iff, setEq_iff] at h ⊢
  exact ⟨⟨h.1.2, h.1.1⟩, ⟨h.2.2, h.2.1⟩⟩

theorem canRun_trans {a b c : OperationMetadata} (h1 : canRunParallelWith a b = true)
    (h2 : canRunParallelWith b c = true) : canRunParallelWith a c = true := by
  rw [canRunParallelWith, Bool.and_eq_true, setEq_iff, setEq_iff] at h1 h2 ⊢
  exact ⟨⟨fun x hx => h2.1.1 x (h1.1.1 x hx), fun x hx => h1.1.2 x (h2.1.2 x hx)⟩,
    ⟨fun x hx => h2.2.1 x (h1.2.1 x hx), fun x hx => h1.2.2 x (h2.2.2 x hx)⟩⟩

/-! ### The greedy grouping only admits members equivalent to the founder -/

theorem absorbGroup_mem (op1 : OperationMetadata) :
    ∀ (rest : List OperationMetadata) (used : List String),
      ∀ n ∈ (absorbGroup op1 rest used).1,
        ∃ op2 ∈ rest, op2.name = n ∧ canRunParallelWith op1 op2 = true := by
  intro rest
  induction rest with
  | nil => intro used n hn; cases hn
  | cons op2 rest' ih =>
    intro used n hn
    rw [absorbGroup] at hn
    by_cases h1 : op2.name ∈ used
    · rw [if_pos h1] at hn
      obtain ⟨op3, h3, h4, h5⟩ := ih used n hn
      exact ⟨op3, List.mem_cons_of_mem _ h3, h4, h5⟩
    · rw [if_neg h1] at hn
      by_cases h2 : canRunParallelWith op1 op2 = true
      · rw [if_pos h2] at hn
        rcases List.mem_cons.mp hn with h3 | h3
        · exact ⟨op2, List.mem_cons_self _ _, h3.symm, h2⟩
        · obtain ⟨op3, h4, h5, h6⟩ := ih (op2.name :: used) n h3
          exact ⟨op3, List.mem_cons_of_mem _ h4, h5, h6⟩
      · rw [if_neg h2] at hn
        obtain ⟨op3, h3, h4, h5⟩ := ih used n hn
        exact ⟨op3, List.mem_cons_of_mem _ h3, h4, h5⟩

theorem groupsGo_founder :
    ∀ (l : List OperationMetadata) (used : List String), ∀ grp ∈ groupsGo l used,
      ∃ op1 ∈ l, ∀ n ∈ grp, ∃ op2 ∈ l, op2.name = n ∧
        canRunParallelWith op1 op2 = true := by
  intro l
  induction l with
  | nil => intro used grp hgrp; cases hgrp
  | cons op1 rest ih =>
    intro used grp hgrp
    rw [groupsGo] at hgrp
    by_cases h1 : op1.name ∈ used
    · rw [if_pos h1] at hgrp
      obtain ⟨opf, h2, h3⟩ := ih used grp hgrp
      exact ⟨opf, List.mem_cons_of_mem _ h2, fun n hn =>
        (h3 n hn).elim (fun op2 h4 => ⟨op2, List.mem_cons_of_mem _ h4.1, h4.2⟩)⟩
    · rw [if_neg h1] at hgrp
      rcases List.mem_cons.mp hgrp with h2 | h2
      · subst h2
        refine ⟨op1, List.mem_cons_self _ _, ?_⟩
        intro n hn
        rcases List.mem_cons.mp hn with h3 | h3
        · exact ⟨op1, List.mem_cons_self _ _, h3.symm, canRun_refl op1⟩
        · obtain ⟨op2, h4, h5, h6⟩ := absorbGroup_mem op1 rest (op1.name :: used) n h3
          exact ⟨op2, List.mem_cons_of_mem _ h4, h5, h6⟩
      · obtain ⟨opf, h3, h4⟩ := ih _ grp h2
        exact ⟨opf, List.mem_cons_of_mem _ h3, fun n hn =>
          (h4 n hn).elim (fun op2 h5 => ⟨op2, List.mem_cons_of_mem _ h5.1, h5.2⟩)⟩

theorem findParallelGroupsInFlow_pairwise (opMeta : List OperationMetadata) :
    ∀ grp ∈ findParallelGroupsInFlow opMeta, ∀ a ∈ grp, ∀ b ∈ grp,
      ∃ opa ∈ opMeta, ∃ opb ∈ opMeta, opa.name = a ∧ opb.name = b ∧
        canRunParallelWith opa opb = true := by
  intro grp hgrp a ha b hb
  rw [findParallelGroupsInFlow] at hgrp
  by_cases hlen : opMeta.length ≤ 1
  · rw [if_pos hlen] at hgrp
    obtain ⟨op, hop, hgrp'⟩ := List.mem_map.mp hgrp
    subst hgrp'
    rw [List.mem_singleton] at ha hb
    subst ha
    subst hb
    exact ⟨op, hop, op, hop, rfl, rfl, canRun_refl op⟩
  · rw [if_neg hlen] at hgrp
    obtain ⟨op1, hop1, hmem⟩ := groupsGo_founder opMeta [] grp hgrp
    obtain ⟨opa, hopa, hna, hca⟩ := hmem a ha
    obtain ⟨opb, hopb, hnb, hcb⟩ := hmem b hb
    exact ⟨opa, hopa, opb, hopb, hna, hnb, canRun_trans (canRun_symm hca) hcb⟩

/-- In a flow produced by `compile`, the metadata of every member name is its
lookup in the compiler's operations dict. -/
theorem flowMeta_lookup {opsDict : List (String × OperationMetadata)}
    (hdict : ∀ k, (opLookup opsDict k).name = k)
    {names : List String} {op : OperationMetadata}
    (hop : op ∈ names.map (opLookup opsDict)) : op = opLookup opsDict op.name := by
  obtain ⟨n, _, hn⟩ := List.mem_map.mp hop
  subst hn
  rw [hdict n]

/-- Pairwise concurrency inside every parallel group of every compiled flow. -/
theorem compiled_groups_pairwise {ops : List OperationMetadata} {orch : Orchestration}
    (h : compile ops = .ok orch) :
    ∀ f ∈ orch.flows, ∀ grp ∈ f.parallel_groups, ∀ a ∈ grp, ∀ b ∈ grp,
      canRunParallelWith (opLookup orch.operation_metadata a)
        (opLookup orch.operation_metadata b) = true := by
  obtain ⟨_, _, hdict, grouped, _, hflows⟩ := compile_ok_parts h
  intro f hf grp hgrp a ha b hb
  obtain ⟨names, _, hpg, _, _⟩ := (createFlowsGo_spec hflows).2 f hf
  rw [hpg] at hgrp
  obtain ⟨opa, hopa, opb, hopb, hna, hnb, hcab⟩ :=
    findParallelGroupsInFlow_pairwise _ grp hgrp a ha b hb
  have ha' : opa = opLookup (dictOfOps ops) a := by
    have h2 := flowMeta_lookup (opLookup_name ops) hopa
    rw [hna] at h2
    exact h2
  have hb' : opb = opLookup (dictOfOps ops) b := by
    have h2 := flowMeta_lookup (opLookup_name ops) hopb
    rw [hnb] at h2
    exact h2
  rw [hdict, ← ha', ← hb']
  exact hcab

/-! ### Partition facts for the hierarchical grouping and the greedy grouping -/

theorem flatten_dappend {κ : Type} [DecidableEq κ] (k : κ) (v : String)
    (d : List (κ × List String)) :
    (((dappend k v d).map (·.2)).flatten).Perm ((d.map (·.2)).flatten ++ [v]) := by
  induction d with
  | nil => simp [dappend]
  | cons p rest ih =>
    obtain ⟨k', vs⟩ := p
    by_cases hk : k' = k
    · subst hk
      rw [dappend, if_pos rfl]
      simp only [List.map_cons, List.flatten_cons, List.append_assoc]
      exact (List.Perm.append_left vs (List.perm_append_comm)).symm.symm
    · rw [dappend, if_neg hk]
      simp only [List.map_cons, List.flatten_cons, List.append_assoc]
      exact List.Perm.append_left vs ih

theorem groupByParentGo_flatten :
    ∀ (names : List String) (acc grouped : List (Option String × List String)),
      groupByParentGo acc names = .ok grouped →
      ((grouped.map (·.2)).flatten).Perm ((acc.map (·.2)).flatten ++ names) := by
  intro names
  induction names with
  | nil =>
    intro acc grouped h
    rw [groupByParentGo] at h
    injection h with h2
    subst h2
    simp
  | cons n rest ih =>
    intro acc grouped h
    rw [groupByParentGo] at h
    cases hp : parseName n with
    | error e => rw [hp] at h; cases h
    | ok p =>
      rw [hp] at h
      have hperm := ih (dappend p.parent n acc) grouped h
      refine hperm.trans ?_
      have h2 := (flatten_dappend p.parent n acc).append_right rest
      have h3 : ((acc.map (·.2)).flatten ++ [n]) ++ rest =
          (acc.map (·.2)).flatten ++ (n :: rest) := by simp
      rw [h3] at h2
      exact h2

theorem dappend_val_nonempty {κ α : Type} [DecidableEq κ] (k : κ) (v : α)
    {d : List (κ × List α)} (h : ∀ p ∈ d, p.2 ≠ []) :
    ∀ p ∈ dappend k v d, p.2 ≠ [] := by
  induction d with
  | nil =>
    intro p hp
    rw [dappend, List.mem_singleton] at hp
    subst hp
    simp
  | cons q rest ih =>
    obtain ⟨k', vs⟩ := q
    intro p hp
    by_cases hk : k' = k
    · subst hk
      rw [dappend, if_pos rfl] at hp
      rcases List.mem_cons.mp hp with h1 | h1
      · subst h1
        simp
      · exact h p (List.mem_cons_of_mem _ h1)
    · rw [dappend, if_neg hk] at hp
      rcases List.mem_cons.mp hp with h1 | h1
      · subst h1
        exact h _ (List.mem_cons_self _ _)
      · exact ih (fun q hq => h q (List.mem_cons_of_mem _ hq)) p h1

theorem groupByParentGo_nonempty :
    ∀ (names : List String) (acc grouped : List (Option String × List String)),
      groupByParentGo acc names = .ok grouped → (∀ p ∈ acc, p.2 ≠ []) →
      ∀ p ∈ grouped, p.2 ≠ [] := by
  intro names
  induction names with
  | nil =>
    intro acc grouped h hacc
    rw [groupByParentGo] at h
    injection h with h2
    subst h2
    exact hacc
  | cons n rest ih =>
    intro acc grouped h hacc
    rw [groupByParentGo] at h
    cases hp : parseName n with
    | error e => rw [hp] at h; cases h
    | ok p =>
      rw [hp] at h
      exact ih _ grouped h (dappend_val_nonempty p.parent n hacc)

theorem filter_not_mem_cons {l : List String} {x : String} (hx : x ∉ l)
    (used : List String) :
    l.filter (fun y => decide (y ∉ x :: used)) = l.filter (fun y => decide (y ∉ used)) := by
  refine List.filter_congr ?_
  intro y hy
  rw [decide_eq_decide]
  constructor
  · intro h hc
    exact h (List.mem_cons_of_mem _ hc)
  · intro h hc
    rcases List.mem_cons.mp hc with h1 | h1
    · subst h1
      exact hx hy
    · exact h h1

theorem absorbGroup_used_iff (op1 : OperationMetadata) :
    ∀ (rest : List OperationMetadata) (used : List String) (x : String),
      x ∈ (absorbGroup op1 rest used).2 ↔ x ∈ (absorbGroup op1 rest used).1 ∨ x ∈ used := by
  intro rest
  induction rest with
  | nil => intro used x; rw [absorbGroup]; simp
  | cons op2 rest' ih =>
    intro used x
    rw [absorbGroup]
    by_cases h1 : op2.name ∈ used
    · rw [if_pos h1]
      exact ih used x
    · rw [if_neg h1]
      by_cases h2 : canRunParallelWith op1 op2 = true
      · rw [if_pos h2]
        simp only [List.mem_cons]
        rw [ih (op2.name :: used) x]
        simp only [List.mem_cons]
        tauto
      · rw [if_neg h2]
        exact ih used x

theorem absorbGroup_sub (op1 : OperationMetadata) :
    ∀ (rest : List OperationMetadata) (used : List String),
      ∀ n ∈ (absorbGroup op1 rest used).1, n ∈ rest.map (·.name) ∧ n ∉ used := by
  intro rest
  induction rest with
  | nil => intro used n hn; cases hn
  | cons op2 rest' ih =>
    intro used n hn
    rw [absorbGroup] at hn
    by_cases h1 : op2.name ∈ used
    · rw [if_pos h1] at hn
      obtain ⟨h2, h3⟩ := ih used n hn
      exact ⟨List.mem_cons_of_mem _ h2, h3⟩
    · rw [if_neg h1] at hn
      by_cases h2 : canRunParallelWith op1 op2 = true
      · rw [if_pos h2] at hn
        rcases List.mem_cons.mp hn with h3 | h3
        · subst h3
          exact ⟨List.mem_cons_self _ _, h1⟩
        · obtain ⟨h4, h5⟩ := ih (op2.name :: used) n h3
          exact ⟨List.mem_cons_of_mem _ h4, fun hc => h5 (List.mem_cons_of_mem _ hc)⟩
      · rw [if_neg h2] at hn
        obtain ⟨h3, h4⟩ := ih used n hn
        exact ⟨List.mem_cons_of_mem _ h3, h4⟩

theorem absorbGroup_perm (op1 : OperationMetadata) :
    ∀ (rest : List OperationMetadata) (used : List String),
      (rest.map (·.name)).Nodup →
      ((rest.map (·.name)).filter (fun x => decide (x ∉ used))).Perm
        ((absorbGroup op1 rest used).1 ++
          ((rest.map (·.name)).filter
            (fun x => decide (x ∉ (absorbGroup op1 rest used).2)))) := by
  intro rest
  induction rest with
  | nil => intro used _; rw [absorbGroup]; simp
  | cons op2 rest' ih =>
    intro used hnd
    simp only [List.map_cons, List.nodup_cons] at hnd
    rw [absorbGroup]
    by_cases h1 : op2.name ∈ used
    · rw [if_pos h1]
      have hmem2 : op2.name ∈ (absorbGroup op1 rest' used).2 :=
        (absorbGroup_used_iff op1 rest' used op2.name).mpr (Or.inr h1)
      simp only [List.map_cons, List.filter_cons]
      rw [show (decide (op2.name ∉ used)) = false by simp [h1],
        show (decide (op2.name ∉ (absorbGroup op1 rest' used).2)) = false by simp [hmem2]]
      exact ih used hnd.2
    · rw [if_neg h1]
      by_cases h2 : canRunParallelWith op1 op2 = true
      · rw [if_pos h2]
        simp only [List.map_cons, List.filter_cons]
        rw [show (decide (op2.name ∉ used)) = true by simp [h1]]
        have hih := ih (op2.name :: used) hnd.2
        rw [filter_not_mem_cons hnd.1 used] at hih
        have hmem2 : op2.name ∈ (absorbGroup op1 rest' (op2.name :: used)).2 :=
          (absorbGroup_used_iff op1 rest' (op2.name :: used) op2.name).mpr
            (Or.inr (List.mem_cons_self _ _))
        rw [show (decide (op2.name ∉ (absorbGroup op1 rest' (op2.name :: used)).2)) = false
          by simp [hmem2]]
        exact (hih.cons op2.name).trans (List.Perm.refl _)
      · rw [if_neg h2]
        simp only [List.map_cons, List.filter_cons]
        rw [show (decide (op2.name ∉ used)) = true by simp [h1]]
        have hnotin2 : op2.name ∉ (absorbGroup op1 rest' used).2 := by
          rw [absorbGroup_used_iff]
          push_neg
          refine ⟨?_, h1⟩
          intro hc
          exact hnd.1 (absorbGroup_sub op1 rest' used op2.name hc).1
        rw [show (decide (op2.name ∉ (absorbGroup op1 rest' used).2)) = true
          by simp [hnotin2]]
        have hih := ih used hnd.2
        refine (hih.cons op2.name).trans ?_
        exact (List.perm_middle).symm

theorem groupsGo_flatten :
    ∀ (l : List OperationMetadata) (used : List String), (l.map (·.name)).Nodup →
      ((groupsGo l used).flatten).Perm
        ((l.map (·.name)).filter (fun x => decide (x ∉ used))) := by
  intro l
  induction l with
  | nil => intro used _; rw [groupsGo]; simp
  | cons op1 rest ih =>
    intro used hnd
    simp only [List.map_cons, List.nodup_cons] at hnd
    rw [groupsGo]
    by_cases h1 : op1.name ∈ used
    · rw [if_pos h1]
      simp only [List.map_cons, List.filter_cons]
      rw [show (decide (op1.name ∉ used)) = false by simp [h1]]
      exact ih used hnd.2
    · rw [if_neg h1]
      simp only [List.flatten_cons, List.map_cons, List.filter_cons]
      rw [show (decide (op1.name ∉ used)) = true by simp [h1]]
      have habs := absorbGroup_perm op1 rest (op1.name :: used) hnd.2
      rw [filter_not_mem_cons hnd.1 used] at habs
      have hrest := ih (absorbGroup op1 rest (op1.name :: used)).2 hnd.2
      have hinner : ((absorbGroup op1 rest (op1.name :: used)).1 ++
            (groupsGo rest (absorbGroup op1 rest (op1.name :: used)).2).flatten).Perm
          ((rest.map (·.name)).filter (fun x => decide (x ∉ used))) :=
        (List.Perm.append_left _ hrest).trans habs.symm
      simp only [List.cons_append]
      exact hinner.cons op1.name

theorem findParallelGroupsInFlow_flatten (opMeta : List OperationMetadata)
    (hnd : (opMeta.map (·.name)).Nodup) :
    ((findParallelGroupsInFlow opMeta).flatten).Perm (opMeta.map (·.name)) := by
  rw [findParallelGroupsInFlow]
  by_cases hlen : opMeta.length ≤ 1
  · rw [if_pos hlen]
    cases opMeta with
    | nil => simp
    | cons op rest =>
      cases rest with
      | nil => simp
      | cons op2 rest2 => simp at hlen
  · rw [if_neg hlen]
    have h := groupsGo_flatten opMeta [] hnd
    refine h.trans ?_
    rw [List.filter_congr (fun x _ => by simp : ∀ x ∈ opMeta.map (·.name),
      (decide (x ∉ ([] : List String))) = true)]
    simp

theorem groupsGo_groups_nonempty :
    ∀ (l : List OperationMetadata) (used : List String), ∀ grp ∈ groupsGo l used,
      grp ≠ [] := by
  intro l
  induction l with
  | nil => intro used grp hgrp; cases hgrp
  | cons op1 rest ih =>
    intro used grp hgrp
    rw [groupsGo] at hgrp
    by_cases h1 : op1.name ∈ used
    · rw [if_pos h1] at hgrp
      exact ih used grp hgrp
    · rw [if_neg h1] at hgrp
      rcases List.mem_cons.mp hgrp with h2 | h2
      · subst h2
        simp
      · exact ih _ grp h2

theorem findParallelGroupsInFlow_nonempty (opMeta : List OperationMetadata) :
    ∀ grp ∈ findParallelGroupsInFlow opMeta, grp ≠ [] := by
  intro grp hgrp
  rw [findParallelGroupsInFlow] at hgrp
  by_cases hlen : opMeta.length ≤ 1
  · rw [if_pos hlen] at hgrp
    obtain ⟨op, _, h2⟩ := List.mem_map.mp hgrp
    subst h2
    simp
  · rw [if_neg hlen] at hgrp
    exact groupsGo_groups_nonempty opMeta [] grp hgrp

theorem nodup_of_mem_flatten {α : Type} {L : List (List α)} (h : L.flatten.Nodup) :
    ∀ l ∈ L, l.Nodup := by
  induction L with
  | nil => intro l hl; cases hl
  | cons a L' ih =>
    rw [List.flatten_cons, List.nodup_append] at h
    intro l hl
    rcases List.mem_cons.mp hl with h1 | h1
    · exact h1 ▸ h.1
    · exact ih h.2.1 l h1

theorem map_name_map_opLookup (ops : List OperationMetadata) (names : List String) :
    (names.map (opLookup (dictOfOps ops))).map (·.name) = names := by
  rw [List.map_map]
  refine List.map_congr_left ?_ |>.trans (List.map_id _)
  intro n _
  exact opLookup_name ops n

/-! ### Flow-local dependencies are a restriction of the global ones -/

theorem flowDeps_entry {g : DataFlowGraph} {names : List String} :
    ∀ p ∈ flowDeps g names,
      p.2 = (depsOf g p.1).filter (fun x => decide (x ∈ names)) := by
  unfold flowDeps
  refine foldl_inv
    (fun d : List (String × List String) =>
      ∀ p ∈ d, p.2 = (depsOf g p.1).filter (fun x => decide (x ∈ names)))
    _ names [] (by intro p hp; cases hp) ?_
  intro d op _ hd p hp
  rcases mem_dinsert hp with h1 | h1
  · subst h1
    rfl
  · exact hd p h1

theorem localAdj_base_values (names : List String) :
    ∀ p ∈ names.foldl (fun d op => dinsert op ([] : List String) d) [], p.2 = [] := by
  refine foldl_inv (fun d : List (String × List String) => ∀ p ∈ d, p.2 = []) _ names []
    (by intro p hp; cases hp) ?_
  intro d op _ hd p hp
  rcases mem_dinsert hp with h1 | h1
  · subst h1
    rfl
  · exact hd p h1

theorem localAdj_values {g : DataFlowGraph} {f : FlowDefinition}
    (hdep : ∀ p ∈ f.dependencies, ∀ y ∈ p.2, y ∈ depsOf g p.1) :
    ∀ p ∈ localAdj f, ∀ y ∈ p.2, y ∈ depsOf g p.1 := by
  unfold localAdj
  refine foldl_inv
    (fun d : List (String × List String) => ∀ p ∈ d, ∀ y ∈ p.2, y ∈ depsOf g p.1)
    _ f.dependencies _ ?_ ?_
  · intro p hp y hy
    rw [localAdj_base_values f.operations p hp] at hy
    cases hy
  · intro d pr hpr hd p hp
    by_cases hsome : (dget? d pr.1).isSome = true
    · rw [if_pos hsome] at hp
      rcases mem_dinsert hp with h1 | h1
      · subst h1
        intro y hy
        rw [List.mem_filter] at hy
        exact hdep pr hpr y hy.1
      · exact hd p h1
    · rw [if_neg hsome] at hp
      exact hd p hp

/-- A flow whose dependency dict is the restriction of an acyclic global graph
passes its local cycle check. -/
theorem localCycle_false {ops : List OperationMetadata} {f : FlowDefinition}
    (hshape : f.dependencies = flowDeps (buildGraph ops) f.operations)
    (hacyc : Acyc (depsOf (buildGraph ops)) (opKeys (buildGraph ops))) :
    (∀ x, ¬ Relation.TransGen (Dep (fun n => (dget? (localAdj f) n).getD [])) x x) ∧
    hasCircularDependencies f = false := by
  have hvals : ∀ p ∈ localAdj f, ∀ y ∈ p.2, y ∈ depsOf (buildGraph ops) p.1 := by
    refine localAdj_values ?_
    intro p hp y hy
    rw [hshape] at hp
    have h2 := flowDeps_entry p hp
    rw [h2] at hy
    rw [List.mem_filter] at hy
    exact hy.1
  have hmono : ∀ a b, Dep (fun n => (dget? (localAdj f) n).getD []) a b →
      Dep (depsOf (buildGraph ops)) a b := by
    intro a b hab
    rw [Dep] at hab ⊢
    cases hq : dget? (localAdj f) a with
    | none => rw [hq] at hab; cases hab
    | some vs =>
      rw [hq] at hab
      simp only [Option.getD_some] at hab
      exact hvals (a, vs) (dget?_mem hq) b hab
  have hnocycle : ∀ x, ¬ Relation.TransGen
      (Dep (fun n => (dget? (localAdj f) n).getD [])) x x := by
    intro x hx
    have hgx := Relation.TransGen.mono hmono hx
    obtain ⟨y, hy, _⟩ := Relation.TransGen.head'_iff.mp hgx
    have hxN : x ∈ opKeys (buildGraph ops) :=
      (opKeys_buildGraph_mem ops x).mpr ((buildGraph_inv ops).1 x y hy).1
    exact hacyc x hxN hgx
  refine ⟨hnocycle, ?_⟩
  cases hb : hasCircularDependencies f
  · rfl
  · exfalso
    rw [hasCircularDependencies] at hb
    obtain ⟨x, hx⟩ := cycleFrom_true _ _ hb
    exact hnocycle x hx

/-! ### Analysis of name parsing -/

theorem string_mk_beq_empty (l : List Char) : (String.mk l == "") = l.isEmpty := by
  cases l
  · rfl
  · rfl

theorem filter_map_mk (L : List (List Char)) :
    (L.map (fun l => String.mk l)).filter (fun s => !(s == "")) =
      (L.filter (fun l => !l.isEmpty)).map (fun l => String.mk l) := by
  induction L with
  | nil => rfl
  | cons l L' ih =>
    simp only [List.map_cons, List.filter_cons, string_mk_beq_empty]
    cases hb : l.isEmpty
    · simp only [Bool.not_false, if_pos rfl]
      rw [ih]
      rfl
    · simp only [Bool.not_true]
      rw [if_neg (by simp), if_neg (by simp)]
      exact ih

theorem splitDot_ne_nil (cs : List Char) : splitDot cs ≠ [] := by
  cases cs with
  | nil => simp [splitDot]
  | cons c cs' =>
    rw [splitDot]
    cases h : splitDot cs' with
    | nil => exact absurd h (splitDot_ne_nil cs')
    | cons s rest =>
      dsimp only
      by_cases hc : c = '.'
      · rw [if_pos hc]
        simp
      · rw [if_neg hc]
        simp

theorem segs_ne_nil {cs : List Char} {c : Char} (hc : c ∈ cs) (hdot : c ≠ '.') :
    (splitDot cs).filter (fun l => !l.isEmpty) ≠ [] := by
  induction cs with
  | nil => cases hc
  | cons a cs' ih =>
    rw [splitDot]
    cases h : splitDot cs' with
    | nil => exact absurd h (splitDot_ne_nil cs')
    | cons s rest =>
      dsimp only
      by_cases ha : a = '.'
      · rw [if_pos ha]
        have hc' : c ∈ cs' := by
          rcases List.mem_cons.mp hc with h1 | h1
          · exact absurd (h1.trans ha) hdot
          · exact h1
        have := ih hc'
        rw [h] at this
        simpa using this
      · rw [if_neg ha]
        simp only [List.filter_cons]
        rw [if_pos (by simp)]
        simp

theorem pyIsAlnum_filter_false_iff (cs : List Char) :
    pyIsAlnum (cs.filter (fun c => !(c == '.') && !(c == '_'))) = false ↔
      ((∃ c ∈ cs, ¬(c.isAlphanum ∨ c = '.' ∨ c = '_')) ∨ (∀ c ∈ cs, ¬ c.isAlphanum)) := by
  have hmem : ∀ c : Char, c ∈ cs.filter (fun c => !(c == '.') && !(c == '_')) ↔
      (c ∈ cs ∧ c ≠ '.' ∧ c ≠ '_') := by
    intro c
    rw [List.mem_filter]
    simp
  rw [Bool.eq_false_iff]
  rw [pyIsAlnum]
  rw [Ne, Bool.and_eq_true, List.all_eq_true]
  constructor
  · intro h
    by_cases hall : ∀ c ∈ cs, c = '.' ∨ c = '_'
    · refine Or.inr ?_
      intro c hc
      rcases hall c hc with h1 | h1
      · subst h1
        decide
      · subst h1
        decide
    · push_neg at hall
      obtain ⟨c, hc, hcd, hcu⟩ := hall
      by_cases hallal : ∀ x ∈ cs.filter (fun c => !(c == '.') && !(c == '_')),
          x.isAlphanum = true
      · exfalso
        apply h
        constructor
        · simp only [Bool.not_eq_true']
          rw [Bool.eq_false_iff, Ne, List.isEmpty_eq_true]
          intro hnil
          have hcm : c ∈ cs.filter (fun c => !(c == '.') && !(c == '_')) :=
            (hmem c).mpr ⟨hc, hcd, hcu⟩
          rw [hnil] at hcm
          cases hcm
        · exact hallal
      · push_neg at hallal
        obtain ⟨x, hx, hxal⟩ := hallal
        obtain ⟨hx1, hx2, hx3⟩ := (hmem x).mp hx
        refine Or.inl ⟨x, hx1, ?_⟩
        intro hh
        rcases hh with hh | hh | hh
        · exact hxal hh
        · exact hx2 hh
        · exact hx3 hh
  · intro h hcon
    obtain ⟨h1, h2⟩ := hcon
    rcases h with ⟨c, hc, hbad⟩ | hnoal
    · push_neg at hbad
      obtain ⟨hb1, hb2, hb3⟩ := hbad
      exact hb1 (h2 c ((hmem c).mpr ⟨hc, hb2, hb3⟩))
    · simp only [Bool.not_eq_true'] at h1
      rw [Bool.eq_false_iff, Ne, List.isEmpty_eq_true] at h1
      obtain ⟨c, hc⟩ := List.exists_mem_of_ne_nil _ h1
      obtain ⟨hc1, _, _⟩ := (hmem c).mp hc
      exact hnoal c hc1 (h2 c hc)

theorem nameParts_eq (name : String) :
    nameParts name =
      ((splitDot name.toList).filter (fun l => !l.isEmpty)).map (fun l => String.mk l) := by
  rw [nameParts, filter_map_mk]

theorem parseName_error_iff (name : String) :
    (∃ e, parseName name = .error e) ↔
      (name = "" ∨ (∃ c ∈ name.toList, ¬(c.isAlphanum ∨ c = '.' ∨ c = '_')) ∨
       (∀ c ∈ name.toList, ¬ c.isAlphanum) ∨
       ((splitDot name.toList).filter (fun l => !l.isEmpty)).length > 10) := by
  by_cases hname : name = ""
  · constructor
    · intro _
      exact Or.inl hname
    · intro _
      refine ⟨"Operation name must be non-empty string", ?_⟩
      rw [parseName, if_pos hname]
  · rw [parseName, if_neg hname]
    by_cases halnum :
        pyIsAlnum (name.toList.filter (fun c => !(c == '.') && !(c == '_'))) = false
    · rw [if_pos (by rw [halnum]; rfl)]
      constructor
      · intro _
        rcases (pyIsAlnum_filter_false_iff name.toList).mp halnum with h | h
        · exact Or.inr (Or.inl h)
        · exact Or.inr (Or.inr (Or.inl h))
      · intro _
        exact ⟨_, rfl⟩
    · have halnum' :
          pyIsAlnum (name.toList.filter (fun c => !(c == '.') && !(c == '_'))) = true := by
        cases hb : pyIsAlnum (name.toList.filter (fun c => !(c == '.') && !(c == '_')))
        · exact absurd hb halnum
        · rfl
      rw [if_neg (by rw [halnum']; simp)]
      by_cases hempty : (nameParts name).isEmpty = true
      · -- unreachable: an isalnum-passing name has a non-empty segment
        exfalso
        rw [List.isEmpty_eq_true, nameParts_eq] at hempty
        have hstr : name.toList.filter (fun c => !(c == '.') && !(c == '_')) ≠ [] := by
          intro hnil
          rw [pyIsAlnum, hnil] at halnum'
          cases halnum'
        obtain ⟨c, hc⟩ := List.exists_mem_of_ne_nil _ hstr
        rw [List.mem_filter] at hc
        have hcd : c ≠ '.' := by
          intro he
          rw [he] at hc
          simp at hc
        have hsegs := segs_ne_nil hc.1 hcd
        apply hsegs
        cases hfil : (splitDot name.toList).filter (fun l => !l.isEmpty) with
        | nil => rfl
        | cons a t =>
          rw [hfil, List.map_cons] at hempty
          cases hempty
      · rw [if_neg hempty]
        by_cases hlen : (nameParts name).length > 10
        · rw [if_pos hlen]
          constructor
          · intro _
            refine Or.inr (Or.inr (Or.inr ?_))
            rw [nameParts_eq, List.length_map] at hlen
            exact hlen
          · intro _
            exact ⟨_, rfl⟩
        · rw [if_neg hlen]
          constructor
          · intro ⟨e, he⟩
            cases he
          · intro h
            rcases h with h | h | h | h
            · exact absurd h hname
            · exact absurd ((pyIsAlnum_filter_false_iff name.toList).mpr (Or.inl h)) halnum
            · exact absurd ((pyIsAlnum_filter_false_iff name.toList).mpr (Or.inr h)) halnum
            · exfalso
              apply hlen
              rw [nameParts_eq, List.length_map]
              exact h

/-! ### Correctness of the memoized level computation -/

theorem dget?_eq_none_iff {κ α : Type} [DecidableEq κ] {d : List (κ × α)} {k : κ} :
    dget? d k = none ↔ k ∉ d.map (·.1) := by
  induction d with
  | nil => simp [dget?]
  | cons p rest ih =>
    obtain ⟨k', v'⟩ := p
    rw [dget?]
    by_cases hk : k' = k
    · subst hk
      simp
    · rw [if_neg hk]
      simp only [List.map_cons, List.mem_cons, ih]
      constructor
      · intro h hc
        rcases hc with hc | hc
        · exact hk hc.symm
        · exact h hc
      · intro h hc
        exact h (Or.inr hc)

theorem getLevel_succ (adj : String → List String) (f : Nat) (node : String)
    (lv : List (String × Nat)) :
    getLevel adj (f+1) node lv =
      match dget? lv node with
      | some v => (lv, v)
      | none =>
        if (adj node).isEmpty then (dinsert node 0 lv, 0)
        else (dinsert node (((adj node).foldl (levelStep adj f) (lv, 0)).2 + 1)
            ((adj node).foldl (levelStep adj f) (lv, 0)).1,
          ((adj node).foldl (levelStep adj f) (lv, 0)).2 + 1) := rfl

theorem FixEq_ext {adj : String → List String} {lv lv' : List (String × Nat)}
    {n : String} {v : Nat} (hext : DExt lv lv') (h : FixEq adj lv n v) :
    FixEq adj lv' n v := by
  rw [FixEq] at h ⊢
  by_cases ha : adj n = []
  · rwa [if_pos ha] at h ⊢
  · rw [if_neg ha] at h ⊢
    obtain ⟨h1, h2⟩ := h
    refine ⟨fun d hd => (h1 d hd).elim (fun vd hvd => ⟨vd, hext d vd hvd⟩), ?_⟩
    rw [h2]
    have hmap : (adj n).map (fun d => (dget? lv' d).getD 0) =
        (adj n).map (fun d => (dget? lv d).getD 0) := by
      refine List.map_congr_left ?_
      intro d hd
      obtain ⟨vd, hvd⟩ := h1 d hd
      rw [hvd, hext d vd hvd]
    rw [hmap]

theorem levelFold {adj : String → List String} {N : List String}
    (hcl : AdjClosed adj N) (hacyc : Acyc adj N) {f : Nat} (hIH : LevelOK adj N f)
    (parent : String) (hpar : parent ∈ N) (G : List String)
    (hG : ∀ g ∈ G, Relation.TransGen (Dep adj) g parent)
    (hfuel : (N.filter (fun x => decide (x ∉ parent :: G))).length < f) :
    ∀ (l : List String), (∀ d ∈ l, d ∈ adj parent) →
    ∀ (acc : List (String × Nat) × Nat), TableOK adj acc.1 →
    DExt acc.1 (l.foldl (levelStep adj f) acc).1 ∧
    (∀ m ∈ parent :: G, dget? acc.1 m = none →
      dget? (l.foldl (levelStep adj f) acc).1 m = none) ∧
    (∀ k v, dget? (l.foldl (levelStep adj f) acc).1 k = some v →
      dget? acc.1 k = some v ∨ k ∈ N) ∧
    TableOK adj (l.foldl (levelStep adj f) acc).1 ∧
    (∀ d ∈ l, ∃ vd, dget? (l.foldl (levelStep adj f) acc).1 d = some vd) ∧
    (l.foldl (levelStep adj f) acc).2 =
      (l.map (fun d => (dget? (l.foldl (levelStep adj f) acc).1 d).getD 0)).foldl
        max acc.2 := by
  intro l
  induction l with
  | nil =>
    intro _ acc htab
    exact ⟨fun k v h => h, fun m _ h => h, fun k v h => Or.inl h, htab,
      (by intro d hd; cases hd), rfl⟩
  | cons d rest ihl =>
    intro hladj acc htab
    have hdadj : d ∈ adj parent := hladj d (List.mem_cons_self _ _)
    have hdN : d ∈ N := (hcl parent d hdadj).2
    have hG' : ∀ g ∈ parent :: G, Relation.TransGen (Dep adj) g d := by
      intro g hg
      rcases List.mem_cons.mp hg with h1 | h1
      · exact h1 ▸ Relation.TransGen.single hdadj
      · exact Relation.TransGen.tail (hG g h1) hdadj
    obtain ⟨e1, e2, e3, e4, e5⟩ := hIH d (parent :: G) acc.1 hdN hG' hacyc hfuel htab
    simp only [List.foldl_cons]
    have hstep : levelStep adj f acc d =
        ((getLevel adj f d acc.1).1, max acc.2 (getLevel adj f d acc.1).2) := rfl
    rw [hstep]
    obtain ⟨c1, c2, c3, c4, c5, c6⟩ := ihl
      (fun x hx => hladj x (List.mem_cons_of_mem _ hx))
      ((getLevel adj f d acc.1).1, max acc.2 (getLevel adj f d acc.1).2) e4
    refine ⟨fun k v h => c1 k v (e1 k v h), ?_, ?_, c4, ?_, ?_⟩
    · intro m hm h
      exact c2 m hm (e2 m hm h)
    · intro k v h
      rcases c3 k v h with h1 | h1
      · rcases e3 k v h1 with h2 | h2
        · exact Or.inl h2
        · exact Or.inr h2
      · exact Or.inr h1
    · intro d' hd'
      rcases List.mem_cons.mp hd' with h1 | h1
      · subst h1
        exact ⟨(getLevel adj f d' acc.1).2, c1 _ _ e5⟩
      · exact c5 d' h1
    · have hlook : dget? (rest.foldl (levelStep adj f)
          ((getLevel adj f d acc.1).1, max acc.2 (getLevel adj f d acc.1).2)).1 d =
          some (getLevel adj f d acc.1).2 := c1 _ _ e5
      rw [List.map_cons, List.foldl_cons, hlook]
      simp only [Option.getD_some]
      exact c6

theorem getLevel_ok {adj : String → List String} {N : List String}
    (hcl : AdjClosed adj N) : ∀ f, LevelOK adj N f := by
  intro f
  induction f with
  | zero =>
    intro node G lv _ _ _ hfuel _
    exact absurd hfuel (Nat.not_lt_zero _)
  | succ f ih =>
    intro node G lv hnode hG hacyc hfuel htab
    have hnG : node ∉ G := fun hc => hacyc node hnode (hG node hc)
    cases hv : dget? lv node with
    | some v =>
      have hres : getLevel adj (f+1) node lv = (lv, v) := by
        rw [getLevel_succ, hv]
      rw [hres]
      exact ⟨fun k w h => h, fun m _ h => h, fun k w h => Or.inl h, htab, hv⟩
    | none =>
      by_cases hemp : (adj node).isEmpty = true
      · have hnil : adj node = [] := List.isEmpty_iff.mp hemp
        have hres : getLevel adj (f+1) node lv = (dinsert node 0 lv, 0) := by
          rw [getLevel_succ, hv]
          dsimp only
          rw [if_pos hemp]
        have hext : DExt lv (dinsert node 0 lv) := by
          intro k w h
          rw [dget?_dinsert]
          have hne : node ≠ k := by
            intro he
            rw [← he, hv] at h
            simp at h
          rw [if_neg hne]
          exact h
        rw [hres]
        refine ⟨hext, ?_, ?_, ?_, ?_⟩
        · intro m hm h
          rw [dget?_dinsert]
          have hne : node ≠ m := by
            intro he
            subst he
            exact hacyc node hnode (hG node hm)
          rw [if_neg hne]
          exact h
        · intro k w h
          rw [dget?_dinsert] at h
          by_cases hkn : node = k
          · exact Or.inr (hkn ▸ hnode)
          · rw [if_neg hkn] at h
            exact Or.inl h
        · refine ⟨keys_dinsert_nodup _ _ htab.1, ?_⟩
          intro p hp
          rcases mem_dinsert hp with h1 | h1
          · subst h1
            dsimp only
            rw [FixEq, if_pos hnil]
          · exact FixEq_ext hext (htab.2 p h1)
        · dsimp only
          rw [dget?_dinsert, if_pos rfl]
      · have hnilne : adj node ≠ [] := by
          intro h
          apply hemp
          rw [h]
          rfl
        have hfuel' : (N.filter (fun x => decide (x ∉ node :: G))).length < f := by
          have := filter_length_lt hnode hnG
          omega
        obtain ⟨c1, c2, c3, c4, c5, c6⟩ := levelFold hcl hacyc ih node hnode G hG hfuel'
          (adj node) (fun d hd => hd) (lv, 0) htab
        set r : List (String × Nat) × Nat := (adj node).foldl (levelStep adj f) (lv, 0) with hr
        have hres : getLevel adj (f+1) node lv = (dinsert node (r.2 + 1) r.1, r.2 + 1) := by
          rw [getLevel_succ, hv]
          dsimp only
          rw [if_neg hemp]
        have hfr : dget? r.1 node = none := c2 node (List.mem_cons_self _ _) hv
        have hextr : DExt r.1 (dinsert node (r.2 + 1) r.1) := by
          intro k w h
          rw [dget?_dinsert]
          have hne : node ≠ k := by
            intro he
            rw [← he, hfr] at h
            simp at h
          rw [if_neg hne]
          exact h
        rw [hres]
        refine ⟨?_, ?_, ?_, ?_, ?_⟩
        · intro k w h
          exact hextr k w (c1 k w h)
        · intro m hm h
          rw [dget?_dinsert]
          have hne : node ≠ m := by
            intro he
            subst he
            exact hacyc node hnode (hG node hm)
          rw [if_neg hne]
          exact c2 m (List.mem_cons_of_mem _ hm) h
        · intro k w h
          rw [dget?_dinsert] at h
          by_cases hkn : node = k
          · exact Or.inr (hkn ▸ hnode)
          · rw [if_neg hkn] at h
            exact c3 k w h
        · refine ⟨keys_dinsert_nodup _ _ c4.1, ?_⟩
          intro p hp
          rcases mem_dinsert hp with h1 | h1
          · subst h1
            dsimp only
            rw [FixEq, if_neg hnilne]
            constructor
            · intro d hd
              obtain ⟨vd, hvd⟩ := c5 d hd
              exact ⟨vd, hextr d vd hvd⟩
            · have hmap : (adj node).map
                  (fun d => (dget? (dinsert node (r.2 + 1) r.1) d).getD 0) =
                  (adj node).map (fun d => (dget? r.1 d).getD 0) := by
                refine List.map_congr_left ?_
                intro d hd
                obtain ⟨vd, hvd⟩ := c5 d hd
                rw [hvd, hextr d vd hvd]
              rw [hmap, ← c6]
          · exact FixEq_ext hextr (c4.2 p h1)
        · dsimp only
          rw [dget?_dinsert, if_pos rfl]

theorem computeLevels_go {adj : String → List String} {N : List String}
    (hcl : AdjClosed adj N) (hacyc : Acyc adj N) {f : Nat}
    (hf : (N.filter (fun x => decide (x ∉ ([] : List String)))).length < f) :
    ∀ (roots : List String), (∀ n ∈ roots, n ∈ N) →
    ∀ lv : List (String × Nat), TableOK adj lv →
    TableOK adj (roots.foldl (fun lv n => (getLevel adj f n lv).1) lv) ∧
    DExt lv (roots.foldl (fun lv n => (getLevel adj f n lv).1) lv) ∧
    (∀ k v, dget? (roots.foldl (fun lv n => (getLevel adj f n lv).1) lv) k = some v →
      dget? lv k = some v ∨ k ∈ N) ∧
    (∀ n ∈ roots, ∃ v,
      dget? (roots.foldl (fun lv n => (getLevel adj f n lv).1) lv) n = some v) := by
  intro roots
  induction roots with
  | nil =>
    intro _ lv htab
    exact ⟨htab, fun k v h => h, fun k v h => Or.inl h, (by intro n hn; cases hn)⟩
  | cons n rest ih =>
    intro hroots lv htab
    have hnN : n ∈ N := hroots n (List.mem_cons_self _ _)
    obtain ⟨e1, e2, e3, e4, e5⟩ :=
      getLevel_ok hcl f n [] lv hnN (by intro g hg; cases hg) hacyc hf htab
    simp only [List.foldl_cons]
    obtain ⟨c1, c2, c3, c4⟩ := ih (fun m hm => hroots m (List.mem_cons_of_mem _ hm))
      (getLevel adj f n lv).1 e4
    refine ⟨c1, fun k v h => c2 k v (e1 k v h), ?_, ?_⟩
    · intro k v h
      rcases c3 k v h with h1 | h1
      · rcases e3 k v h1 with h2 | h2
        · exact Or.inl h2
        · exact Or.inr h2
      · exact Or.inr h1
    · intro m hm
      rcases List.mem_cons.mp hm with h1 | h1
      · subst h1
        exact ⟨(getLevel adj f m lv).2, c2 _ _ e5⟩
      · exact c4 m h1

theorem computeLevels_spec {adj : String → List String} {N : List String}
    (hcl : AdjClosed adj N) (hacyc : Acyc adj N) (hndN : N.Nodup) {f : Nat}
    (hf : N.length < f) :
    TableOK adj (computeLevels adj f N) ∧
    (∀ n ∈ N, ∃ v, dget? (computeLevels adj f N) n = some v) ∧
    (∀ k v, dget? (computeLevels adj f N) k = some v → k ∈ N) ∧
    ((computeLevels adj f N).map (·.1)).Perm N := by
  have hf' : (N.filter (fun x => decide (x ∉ ([] : List String)))).length < f := by
    have he : N.filter (fun x => decide (x ∉ ([] : List String))) = N := by
      refine List.filter_eq_self.mpr ?_
      intro a _
      simp
    rw [he]
    exact hf
  have htab0 : TableOK adj ([] : List (String × Nat)) := by
    constructor
    · simp
    · intro p hp
      cases hp
  obtain ⟨c1, c2, c3, c4⟩ := computeLevels_go hcl hacyc hf' N (fun n hn => hn) [] htab0
  have hT : computeLevels adj f N = N.foldl (fun lv n => (getLevel adj f n lv).1) [] := rfl
  rw [hT]
  have hkey : ∀ k v, dget? (N.foldl (fun lv n => (getLevel adj f n lv).1) []) k = some v →
      k ∈ N := by
    intro k v h
    rcases c3 k v h with h1 | h1
    · simp [dget?] at h1
    · exact h1
  refine ⟨c1, c4, hkey, ?_⟩
  have hsub1 : (N.foldl (fun lv n => (getLevel adj f n lv).1) []).map (·.1) ⊆ N := by
    intro k hk
    obtain ⟨p, hp, hpk⟩ := List.mem_map.mp hk
    obtain ⟨k', v'⟩ := p
    subst hpk
    exact hkey k' v' (mem_dget? c1.1 hp)
  have hsub2 : N ⊆ (N.foldl (fun lv n => (getLevel adj f n lv).1) []).map (·.1) := by
    intro n hn
    obtain ⟨v, hv⟩ := c4 n hn
    exact List.mem_map.mpr ⟨(n, v), dget?_mem hv, rfl⟩
  exact (List.subperm_of_subset c1.1 hsub1).antisymm (List.subperm_of_subset hndN hsub2)

/-! ### Grouping the finished levels table by level value -/

theorem keys_dappend_mem {κ α : Type} [DecidableEq κ] (k : κ) (v : α) (d : List (κ × List α))
    (m : κ) : m ∈ (dappend k v d).map (·.1) ↔ m = k ∨ m ∈ d.map (·.1) := by
  induction d with
  | nil => simp [dappend]
  | cons q rest ih =>
    obtain ⟨k', vs⟩ := q
    by_cases hk : k' = k
    · subst hk
      rw [dappend, if_pos rfl]
      simp only [List.map_cons, List.mem_cons]
      tauto
    · rw [dappend, if_neg hk]
      simp only [List.map_cons, List.mem_cons, ih]
      tauto

theorem keys_dappend_nodup {κ α : Type} [DecidableEq κ] (k : κ) (v : α)
    {d : List (κ × List α)} (h : (d.map (·.1)).Nodup) :
    ((dappend k v d).map (·.1)).Nodup := by
  induction d with
  | nil => simp [dappend]
  | cons q rest ih =>
    obtain ⟨k', vs⟩ := q
    simp only [List.map_cons, List.nodup_cons] at h
    by_cases hk : k' = k
    · subst hk
      rw [dappend, if_pos rfl]
      simp only [List.map_cons, List.nodup_cons]
      exact h
    · rw [dappend, if_neg hk]
      simp only [List.map_cons, List.nodup_cons]
      refine ⟨?_, ih h.2⟩
      rw [keys_dappend_mem]
      rintro (h1 | h1)
      · exact hk h1
      · exact h.1 h1

theorem levelGroups_go_mem :
    ∀ (lv : List (String × Nat)) (d : List (Nat × List String)) (l : Nat) (n : String),
      n ∈ (dget? (lv.foldl (fun d p => dappend p.2 p.1 d) d) l).getD [] ↔
        n ∈ (dget? d l).getD [] ∨ (n, l) ∈ lv := by
  intro lv
  induction lv with
  | nil =>
    intro d l n
    simp
  | cons p rest ih =>
    intro d l n
    obtain ⟨m, w⟩ := p
    simp only [List.foldl_cons]
    rw [ih]
    constructor
    · rintro (h1 | h1)
      · rw [dget?_dappend] at h1
        by_cases hw : w = l
        · rw [if_pos hw] at h1
          simp only [Option.getD_some] at h1
          rcases List.mem_append.mp h1 with h2 | h2
          · rw [hw] at h2
            exact Or.inl h2
          · rw [List.mem_singleton] at h2
            refine Or.inr ?_
            rw [h2, ← hw]
            exact List.mem_cons_self _ _
        · rw [if_neg hw] at h1
          exact Or.inl h1
      · exact Or.inr (List.mem_cons_of_mem _ h1)
    · rintro (h1 | h1)
      · left
        rw [dget?_dappend]
        by_cases hw : w = l
        · rw [if_pos hw]
          simp only [Option.getD_some]
          refine List.mem_append.mpr (Or.inl ?_)
          rw [hw]
          exact h1
        · rw [if_neg hw]
          exact h1
      · rcases List.mem_cons.mp h1 with h2 | h2
        · cases h2
          left
          rw [dget?_dappend, if_pos rfl]
          simp
        · exact Or.inr h2

theorem levelGroups_go_keys :
    ∀ (lv : List (String × Nat)) (d : List (Nat × List String)) (l : Nat),
      l ∈ (lv.foldl (fun d p => dappend p.2 p.1 d) d).map (·.1) ↔
        l ∈ d.map (·.1) ∨ ∃ n, (n, l) ∈ lv := by
  intro lv
  induction lv with
  | nil =>
    intro d l
    simp
  | cons p rest ih =>
    intro d l
    obtain ⟨m, w⟩ := p
    simp only [List.foldl_cons]
    rw [ih, keys_dappend_mem]
    constructor
    · rintro ((h1 | h1) | ⟨n, hn⟩)
      · subst h1
        exact Or.inr ⟨m, List.mem_cons_self _ _⟩
      · exact Or.inl h1
      · exact Or.inr ⟨n, List.mem_cons_of_mem _ hn⟩
    · rintro (h1 | ⟨n, hn⟩)
      · exact Or.inl (Or.inr h1)
      · rcases List.mem_cons.mp hn with h2 | h2
        · cases h2
          exact Or.inl (Or.inl rfl)
        · exact Or.inr ⟨n, h2⟩

theorem levelGroups_go_nodup :
    ∀ (lv : List (String × Nat)) (d : List (Nat × List String)),
      (d.map (·.1)).Nodup →
      ((lv.foldl (fun d p => dappend p.2 p.1 d) d).map (·.1)).Nodup := by
  intro lv
  induction lv with
  | nil =>
    intro d h
    exact h
  | cons p rest ih =>
    intro d h
    exact ih _ (keys_dappend_nodup _ _ h)

theorem levelGroups_mem (lv : List (String × Nat)) (l : Nat) (n : String) :
    n ∈ (dget? (levelGroups lv) l).getD [] ↔ (n, l) ∈ lv := by
  rw [levelGroups, levelGroups_go_mem]
  simp [dget?]

theorem levelGroups_keys (lv : List (String × Nat)) (l : Nat) :
    l ∈ (levelGroups lv).map (·.1) ↔ ∃ n, (n, l) ∈ lv := by
  rw [levelGroups, levelGroups_go_keys]
  simp [dget?]

theorem levelGroups_nodup (lv : List (String × Nat)) :
    ((levelGroups lv).map (·.1)).Nodup := by
  rw [levelGroups]
  exact levelGroups_go_nodup lv [] (by simp)

theorem sorted_lt_of_le_nodup {l : List Nat} (hs : l.Sorted (· ≤ ·)) (hn : l.Nodup) :
    l.Sorted (· < ·) := by
  induction l with
  | nil => exact List.sorted_nil
  | cons a rest ih =>
    rw [List.sorted_cons] at hs ⊢
    rw [List.nodup_cons] at hn
    exact ⟨fun b hb => lt_of_le_of_ne (hs.1 b hb) (fun he => hn.1 (he ▸ hb)),
      ih hs.2 hn.2⟩

/-! ### Claim theorems -/

/-- C1: for every input list of operations whose inferred dependency graph has no
cycle, `topological_sort` returns a permutation of all operation names in which,
for every dependency edge from producer P to consumer C, P appears strictly
before C. -/
theorem claim1_topological_sort_correct (ops : List OperationMetadata)
    (hnd : (ops.map (·.name)).Nodup)
    (hac : hasCycle (buildGraph ops) = false) :
    ∃ l, topologicalSort (buildGraph ops) = .ok l ∧
      l.Perm (ops.map (·.name)) ∧
      ∀ e ∈ (buildGraph ops).edges, ∃ l₁ l₂, l = l₁ ++ e.source :: l₂ ∧ e.target ∈ l₂ := by
  obtain ⟨h1, h2, h3⟩ := topologicalSort_spec hac
  refine ⟨_, h1, ?_, ?_⟩
  · rw [← opKeys_buildGraph_nodup hnd]
    exact h2
  · intro e he
    have hadj : e.source ∈ depsOf (buildGraph ops) e.target := ((buildGraph_inv ops).2 e he).1
    have htN : e.target ∈ opKeys (buildGraph ops) :=
      (opKeys_buildGraph_mem ops e.target).mpr ((buildGraph_inv ops).1 e.target e.source hadj).1
    have htl : e.target ∈ (topoRun (depsOf (buildGraph ops)) (graphFuel (buildGraph ops))
        (opKeys (buildGraph ops))).2 := h2.mem_iff.mpr htN
    obtain ⟨m₁, m₂, hm⟩ := List.append_of_mem htl
    have hsrc : e.source ∈ m₁ := h3 m₁ e.target m₂ hm e.source hadj
    obtain ⟨a, b, hab⟩ := List.append_of_mem hsrc
    refine ⟨a, b ++ e.target :: m₂, ?_, ?_⟩
    · rw [hm, hab]
      simp
    · simp

/-- Witness for C1 at a concrete producer/consumer pair. -/
theorem claim1_witness :
    ∃ l, topologicalSort (buildGraph [⟨"P", [], ["X"]⟩, ⟨"C", ["X"], []⟩]) = .ok l ∧
      l.Perm ([⟨"P", [], ["X"]⟩, ⟨"C", ["X"], []⟩].map (OperationMetadata.name)) ∧
      ∀ e ∈ (buildGraph [⟨"P", [], ["X"]⟩, ⟨"C", ["X"], []⟩]).edges,
        ∃ l₁ l₂, l = l₁ ++ e.source :: l₂ ∧ e.target ∈ l₂ :=
  claim1_topological_sort_correct [⟨"P", [], ["X"]⟩, ⟨"C", ["X"], []⟩]
    (by decide) (by decide)

/-- C2: for the two operations A (outputs [X], inputs [Y]) and B (outputs [Y],
inputs [X]), `has_cycle` is true, and `compile` on any operation list whose graph
has a cycle raises the cycle error and returns no Orchestration. -/
theorem claim2_cycle_detection :
    hasCycle (buildGraph [opCycleA, opCycleB]) = true ∧
    ∀ ops : List OperationMetadata, hasCycle (buildGraph ops) = true →
      compile ops =
        .error "Invalid data flow: Circular dependency detected in operation graph" := by
  constructor
  · decide
  · intro ops h
    simp [compile, compileCore, h]

/-- Witness for C2 at the concrete cyclic pair. -/
theorem claim2_witness :
    compile [opCycleA, opCycleB] =
      .error "Invalid data flow: Circular dependency detected in operation graph" :=
  claim2_cycle_detection.2 [opCycleA, opCycleB] (by decide)

/-- C3 counterexample: on the end-to-end scenario the compiler groups by
immediate parent, so compile succeeds but no produced flow contains all three
scraping operations; the two fetch operations land in their own flows. -/
theorem claim3_counterexample :
    (compile scenarioOps).toOption.map (fun o => o.flows.map (fun f => f.operations)) =
      some [["scraping.stepstone.fetch"], ["scraping.linkedin.fetch"], ["scraping.merge"],
        ["parsing.clean"]] ∧
    (compile scenarioOps).toOption.map
      (fun o => o.flows.all (fun f => !(f.operations.contains "scraping.stepstone.fetch" &&
        f.operations.contains "scraping.linkedin.fetch" &&
        f.operations.contains "scraping.merge"))) = some true := by
  constructor
  · decide
  · decide

/-- C3 amended: the dependency and ordering parts of the scenario hold, but the
hierarchical decomposition groups by immediate parent: each fetch operation gets
its own flow, `merge` is alone in `scraping_flow`, `clean` alone in
`parsing_flow`; the two fetches do share a parallel group of the graph-level
level grouping, and the global order runs both fetches, then merge, then clean. -/
theorem claim3_amended :
    depsOf (buildGraph scenarioOps) "scraping.merge" =
      ["scraping.stepstone.fetch", "scraping.linkedin.fetch"] ∧
    depsOf (buildGraph scenarioOps) "parsing.clean" =
      ["scraping.stepstone.fetch", "scraping.linkedin.fetch", "scraping.merge"] ∧
    (compile scenarioOps).toOption.map
      (fun o => o.flows.map (fun f => (f.name, f.operations, f.parallel_groups))) =
      some [("scraping_stepstone_flow", ["scraping.stepstone.fetch"],
          [["scraping.stepstone.fetch"]]),
        ("scraping_linkedin_flow", ["scraping.linkedin.fetch"],
          [["scraping.linkedin.fetch"]]),
        ("scraping_flow", ["scraping.merge"], [["scraping.merge"]]),
        ("parsing_flow", ["parsing.clean"], [["parsing.clean"]])] ∧
    (topologicalSort (buildGraph scenarioOps)).toOption =
      some ["scraping.stepstone.fetch", "scraping.linkedin.fetch", "scraping.merge",
        "parsing.clean"] ∧
    findParallelGroups (buildGraph scenarioOps) =
      [["scraping.stepstone.fetch", "scraping.linkedin.fetch"], ["scraping.merge"],
        ["parsing.clean"]] := by
  refine ⟨by decide, by decide, by decide, by decide, by decide⟩

/-- C7: graph construction never creates a self-edge, in particular for an
operation whose inputs and outputs share a model, and `has_cycle` on a single
such operation is false. -/
theorem claim7_no_self_edge :
    (∀ (ops : List OperationMetadata) (e : DependencyEdge),
      e ∈ (buildGraph ops).edges → e.source ≠ e.target) ∧
    hasCycle (buildGraph [opSelf]) = false := by
  constructor
  · intro ops e he
    exact ((buildGraph_inv ops).2 e he).2
  · decide

/-- Witness for C7: a concrete graph with an actual edge. -/
theorem claim7_witness :
    (⟨"P", "C", ["X"]⟩ : DependencyEdge) ∈
      (buildGraph [⟨"P", [], ["X"]⟩, ⟨"C", ["X"], []⟩]).edges ∧
    ("P" : String) ≠ "C" :=
  ⟨by decide, claim7_no_self_edge.1 [⟨"P", [], ["X"]⟩, ⟨"C", ["X"], []⟩]
    ⟨"P", "C", ["X"]⟩ (by decide)⟩

/-- C5 counterexample: the claimed input list cannot exist — `can_run_parallel_with`
is set equality of inputs and outputs, hence an equivalence relation, so any two
members of a reported group are related to each other, not only to the founder. -/
theorem claim5_counterexample :
    ¬ ∃ (ops : List OperationMetadata) (orch : Orchestration) (f : FlowDefinition)
      (grp : List String) (a b : String),
      compile ops = .ok orch ∧ f ∈ orch.flows ∧ grp ∈ f.parallel_groups ∧
      a ∈ grp ∧ b ∈ grp ∧
      canRunParallelWith (opLookup orch.operation_metadata a)
        (opLookup orch.operation_metadata b) = false := by
  rintro ⟨ops, orch, f, grp, a, b, hc, hf, hg, ha, hb, hfalse⟩
  have htrue := compiled_groups_pairwise hc f hf grp hg a ha b hb
  rw [htrue] at hfalse
  cases hfalse

/-- C5 amended: the greedy per-flow grouping only ever groups operations that
satisfy `can_run_parallel_with` pairwise, because comparing against the group's
first member suffices for an equivalence relation. -/
theorem claim5_amended (ops : List OperationMetadata) (orch : Orchestration)
    (h : compile ops = .ok orch) :
    ∀ f ∈ orch.flows, ∀ grp ∈ f.parallel_groups, ∀ a ∈ grp, ∀ b ∈ grp,
      canRunParallelWith (opLookup orch.operation_metadata a)
        (opLookup orch.operation_metadata b) = true :=
  compiled_groups_pairwise h

/-- Witness for C5 amended on the end-to-end scenario. -/
theorem claim5_witness :
    (compile scenarioOps).toOption.map
      (fun o => o.flows.all (fun f => f.parallel_groups.all (fun grp =>
        grp.all (fun a => grp.all (fun b =>
          canRunParallelWith (opLookup o.operation_metadata a)
            (opLookup o.operation_metadata b)))))) = some true := by
  cases hc : compile scenarioOps with
  | error e =>
    have hsome : (compile scenarioOps).toOption.isSome = true := by decide
    rw [hc] at hsome
    cases hsome
  | ok orch =>
    have h5 := claim5_amended scenarioOps orch hc
    simp only [Except.toOption, Option.map]
    congr 1
    rw [List.all_eq_true]
    intro f hf
    rw [List.all_eq_true]
    intro grp hgrp
    rw [List.all_eq_true]
    intro a ha
    rw [List.all_eq_true]
    intro b hb
    exact h5 f hf grp hgrp a ha b hb

/-- C9: `compile` is deterministic — with the compiler's state made explicit, two
successive calls on the same input list return identical orchestrations, and in
particular identical flow names, member lists, parallel groupings and local
dependency maps. -/
theorem claim9_compile_deterministic (ops : List OperationMetadata)
    (st : List (String × OperationMetadata)) :
    (compileWithState ops st).1 = (compileWithState ops ((compileWithState ops st).2)).1 ∧
    (compileWithState ops st).1 = compile ops ∧
    ∀ o1 o2, (compileWithState ops st).1 = .ok o1 →
      (compileWithState ops ((compileWithState ops st).2)).1 = .ok o2 →
      o1.flows.map (·.name) = o2.flows.map (·.name) ∧
      o1.flows.map (·.operations) = o2.flows.map (·.operations) ∧
      o1.flows.map (·.parallel_groups) = o2.flows.map (·.parallel_groups) ∧
      o1.flows.map (·.dependencies) = o2.flows.map (·.dependencies) := by
  refine ⟨rfl, rfl, ?_⟩
  intro o1 o2 h1 h2
  have h4 : (Except.ok o1 : Except String Orchestration) = Except.ok o2 := h1 ▸ h2
  injection h4 with h3
  subst h3
  exact ⟨rfl, rfl, rfl, rfl⟩

/-- Witness for C9 at a concrete input and initial state. -/
theorem claim9_witness :
    (compileWithState scenarioOps []).1 =
      (compileWithState scenarioOps ((compileWithState scenarioOps []).2)).1 :=
  (claim9_compile_deterministic scenarioOps []).1

/-- C4: when the global graph is acyclic (compile succeeds), every produced flow
has an acyclic flow-local dependency subgraph — restricting to flow members never
introduces a cycle — and every flow has at least one operation and
`can_execute = true`. -/
theorem claim4_flow_local_acyclic (ops : List OperationMetadata) (orch : Orchestration)
    (h : compile ops = .ok orch) :
    ∀ f ∈ orch.flows, f.operations ≠ [] ∧
      (∀ x, ¬ Relation.TransGen (Dep (fun n => (dget? (localAdj f) n).getD [])) x x) ∧
      canExecute f = true := by
  obtain ⟨hcyc, _, _, grouped, hgr, hflows⟩ := compile_ok_parts h
  have hacyc := hasCycle_false_acyc hcyc
  intro f hf
  obtain ⟨names, hops, _, hdeps, key, hkey⟩ := (createFlowsGo_spec hflows).2 f hf
  have hshape : f.dependencies = flowDeps (buildGraph ops) f.operations := by
    rw [hdeps, hops]
  obtain ⟨hnoc, hcirc⟩ := localCycle_false hshape hacyc
  have hne : f.operations ≠ [] := by
    rw [hops]
    rw [groupByParent] at hgr
    exact groupByParentGo_nonempty (ops.map (·.name)) [] grouped hgr
      (by intro p hp; cases hp) (key, names) hkey
  refine ⟨hne, hnoc, ?_⟩
  rw [canExecute, hcirc]
  obtain ⟨b, L, hbl⟩ := List.exists_cons_of_ne_nil hne
  rw [hbl]
  rfl

/-- Witness for C4 on the end-to-end scenario. -/
theorem claim4_witness :
    (compile scenarioOps).toOption.map (fun o => o.flows.all (fun f => canExecute f)) =
      some true := by
  cases hc : compile scenarioOps with
  | error e =>
    have hsome : (compile scenarioOps).toOption.isSome = true := by decide
    rw [hc] at hsome
    cases hsome
  | ok orch =>
    have h4 := claim4_flow_local_acyclic scenarioOps orch hc
    simp only [Except.toOption, Option.map]
    congr 1
    rw [List.all_eq_true]
    intro f hf
    exact (h4 f hf).2.2

/-- C10: for every successful compile with distinct operation names, the flows'
operation lists partition the input names, and within each flow the parallel
groups partition the flow's operations with no empty group. -/
theorem claim10_partition (ops : List OperationMetadata) (orch : Orchestration)
    (hnd : (ops.map (·.name)).Nodup) (h : compile ops = .ok orch) :
    ((orch.flows.map (·.operations)).flatten).Perm (ops.map (·.name)) ∧
    ∀ f ∈ orch.flows, (f.parallel_groups.flatten).Perm f.operations ∧
      ∀ grp ∈ f.parallel_groups, grp ≠ [] := by
  obtain ⟨_, _, _, grouped, hgr, hflows⟩ := compile_ok_parts h
  have hmapops : orch.flows.map (·.operations) = grouped.map (·.2) :=
    (createFlowsGo_spec hflows).1
  have hjoin : ((grouped.map (·.2)).flatten).Perm (ops.map (·.name)) := by
    rw [groupByParent] at hgr
    have h2 := groupByParentGo_flatten (ops.map (·.name)) [] grouped hgr
    simpa using h2
  have hperm : ((orch.flows.map (·.operations)).flatten).Perm (ops.map (·.name)) := by
    rw [hmapops]
    exact hjoin
  refine ⟨hperm, ?_⟩
  intro f hf
  obtain ⟨names, hops, hpg, _, _, _⟩ := (createFlowsGo_spec hflows).2 f hf
  have hflnd : ((orch.flows.map (·.operations)).flatten).Nodup := hperm.nodup_iff.mpr hnd
  have hopnd : f.operations.Nodup :=
    nodup_of_mem_flatten hflnd f.operations (List.mem_map.mpr ⟨f, hf, rfl⟩)
  have hnamesnd : ((names.map (opLookup (dictOfOps ops))).map (·.name)).Nodup := by
    rw [map_name_map_opLookup]
    exact hops ▸ hopnd
  constructor
  · rw [hpg, hops]
    have h3 := findParallelGroupsInFlow_flatten (names.map (opLookup (dictOfOps ops)))
      hnamesnd
    rw [map_name_map_opLookup] at h3
    exact h3
  · intro grp hgrp
    rw [hpg] at hgrp
    exact findParallelGroupsInFlow_nonempty _ grp hgrp

/-- Witness for C10 on the end-to-end scenario. -/
theorem claim10_witness :
    (compile scenarioOps).toOption.map
      (fun o => decide (((o.flows.map (·.operations)).flatten).Perm
        (scenarioOps.map (·.name)))) = some true := by
  cases hc : compile scenarioOps with
  | error e =>
    have hsome : (compile scenarioOps).toOption.isSome = true := by decide
    rw [hc] at hsome
    cases hsome
  | ok orch =>
    have h10 := claim10_partition scenarioOps orch (by decide) hc
    simp only [Except.toOption, Option.map]
    congr 1
    exact decide_eq_true h10.1

/-- C8 counterexample: `parse("_")` raises, yet `"_"` is non-empty, contains only
characters from [A-Za-z0-9_.], and has exactly one non-empty dot-separated
segment — so the claim's "exactly when" fails on `"_"`. -/
theorem claim8_counterexample :
    parseName "_" = .error
      "Operation name must contain only alphanumeric, dots, and underscores: _" ∧
    "_" ≠ "" ∧
    "_".toList.all (fun c => c.isAlphanum || c == '.' || c == '_') = true ∧
    ((splitDot "_".toList).filter (fun l => !l.isEmpty)).length = 1 := by
  refine ⟨rfl, by decide, by decide, by decide⟩

/-- C8 amended, for names made of ASCII characters only — the domain on which
the model's `pyIsAlnum` agrees with Python's Unicode-aware `str.isalnum` (the
source accepts non-ASCII letters such as 'é', so the claimed character-class
characterization is false of the program outside ASCII): parse errors exactly
when the name is empty, contains a character outside [A-Za-z0-9_.], contains no
alphanumeric character at all (this subsumes "zero non-empty segments"), or has
more than 10 non-empty segments; otherwise it returns a ParsedName; a name with
11 segments fails and one with 10 succeeds. -/
theorem claim8_amended :
    (∀ name : String, (∀ c ∈ name.toList, c.toNat < 128) →
      ((∃ e, parseName name = .error e) ↔
        (name = "" ∨ (∃ c ∈ name.toList, ¬(c.isAlphanum ∨ c = '.' ∨ c = '_')) ∨
         (∀ c ∈ name.toList, ¬ c.isAlphanum) ∨
         ((splitDot name.toList).filter (fun l => !l.isEmpty)).length > 10))) ∧
    (∀ name : String, (∀ c ∈ name.toList, c.toNat < 128) →
      ¬(name = "" ∨ (∃ c ∈ name.toList, ¬(c.isAlphanum ∨ c = '.' ∨ c = '_')) ∨
         (∀ c ∈ name.toList, ¬ c.isAlphanum) ∨
         ((splitDot name.toList).filter (fun l => !l.isEmpty)).length > 10) →
       ∃ p, parseName name = .ok p) ∧
    (∃ e, parseName "a.b.c.d.e.f.g.h.i.j.k" = .error e) ∧
    (∃ p, parseName "a.b.c.d.e.f.g.h.i.j" = .ok p) := by
  refine ⟨fun name _ => parseName_error_iff name, ?_, ⟨_, rfl⟩, ⟨_, rfl⟩⟩
  intro name _ hnot
  cases hp : parseName name with
  | error e => exact absurd ((parseName_error_iff name).mp ⟨e, hp⟩) hnot
  | ok p => exact ⟨p, rfl⟩

/-- Witness for C8 amended: an ordinary two-segment ASCII name parses. -/
theorem claim8_witness : ∃ p, parseName "a.b" = .ok p :=
  claim8_amended.2.1 "a.b" (by decide) (by decide)

/-- C6: `find_parallel_groups` assigns every node level 0 when it has no
dependencies and otherwise one plus the maximum level among its dependencies,
groups nodes of identical level together, and returns the groups ordered by
strictly increasing level; in particular, two operations with empty inputs,
identical singleton output [RawJobs], and no dependency edge between them end
up in the same parallel group. -/
theorem claim6_parallel_levels (ops : List OperationMetadata)
    (hnd : (ops.map (·.name)).Nodup)
    (hac : hasCycle (buildGraph ops) = false) :
    (∀ n ∈ opKeys (buildGraph ops), ∃ v,
      dget? (graphLevels (buildGraph ops)) n = some v ∧
      FixEq (depsOf (buildGraph ops)) (graphLevels (buildGraph ops)) n v) ∧
    ((graphLevels (buildGraph ops)).map (·.1)).Perm (opKeys (buildGraph ops)) ∧
    (∃ ls : List Nat, ls.Sorted (· < ·) ∧
      findParallelGroups (buildGraph ops) =
        ls.map (fun l => (dget? (levelGroups (graphLevels (buildGraph ops))) l).getD []) ∧
      (∀ l, l ∈ ls ↔ ∃ n, (n, l) ∈ graphLevels (buildGraph ops)) ∧
      ∀ l n, n ∈ (dget? (levelGroups (graphLevels (buildGraph ops))) l).getD [] ↔
        (n, l) ∈ graphLevels (buildGraph ops)) ∧
    findParallelGroups (buildGraph [⟨"A", [], ["RawJobs"]⟩, ⟨"B", [], ["RawJobs"]⟩]) =
      [["A", "B"]] := by
  have hcl : AdjClosed (depsOf (buildGraph ops)) (opKeys (buildGraph ops)) := by
    intro x y hy
    obtain ⟨h1, h2⟩ := (buildGraph_inv ops).1 x y hy
    exact ⟨(opKeys_buildGraph_mem ops x).mpr h1, (opKeys_buildGraph_mem ops y).mpr h2⟩
  have hacyc := hasCycle_false_acyc hac
  have hndN : (opKeys (buildGraph ops)).Nodup := by
    rw [opKeys_buildGraph_nodup hnd]
    exact hnd
  have hfN : (opKeys (buildGraph ops)).length < graphFuel (buildGraph ops) := by
    rw [opKeys, graphFuel, List.length_map]
    omega
  obtain ⟨c1, c2, c3, c4⟩ := computeLevels_spec hcl hacyc hndN hfN
  refine ⟨?_, c4, ?_, by decide⟩
  · intro n hn
    obtain ⟨v, hv⟩ := c2 n hn
    exact ⟨v, hv, c1.2 (n, v) (dget?_mem hv)⟩
  · refine ⟨((levelGroups (graphLevels (buildGraph ops))).map
        (fun p : Nat × List String => p.1)).insertionSort (· ≤ ·),
      ?_, rfl, ?_, ?_⟩
    · refine sorted_lt_of_le_nodup (List.sorted_insertionSort _ _) ?_
      exact (List.perm_insertionSort _ _).symm.nodup (levelGroups_nodup _)
    · intro l
      rw [(List.perm_insertionSort (· ≤ ·)
        ((levelGroups (graphLevels (buildGraph ops))).map (·.1))).mem_iff,
        levelGroups_keys]
    · intro l n
      exact levelGroups_mem _ l n

/-- Witness for C6: the two independent producers of RawJobs share the single
parallel group. -/
theorem claim6_witness :
    findParallelGroups (buildGraph [⟨"A", [], ["RawJobs"]⟩, ⟨"B", [], ["RawJobs"]⟩]) =
      [["A", "B"]] :=
  (claim6_parallel_levels [⟨"A", [], ["RawJobs"]⟩, ⟨"B", [], ["RawJobs"]⟩]
    (by decide) (by decide)).2.2.2


end Pulpo
